import Mathlib

/-!
Verification of the two in-memory data structures of this repository:
the LRU-K eviction tracker (`src/buffer/lru_k_replacer.cpp` together with
`lru_k_replacer.h`) and the extendible hash table
(`src/container/hash/extendible_hash_table.cpp`).

The C++ is shallowly embedded: the doubly linked two-segment list of the
replacer becomes a pair of Lean lists (cache segment, history segment),
`shared_ptr<Bucket>` identity becomes an index into a bucket arena, and the
directory of bucket pointers becomes a list of optional arena indices
(`none` models a null `shared_ptr`).  `size_t` counters become `Nat`; the
only place the C++ can underflow (`size_--` in `List::Remove`) is guarded
here by the reachable-state invariant `size = number of evictable nodes`,
under which the subtraction is exact.
-/

namespace Bustub

/-! ## LRU-K replacer: data model (`lru_k_replacer.h`, lines 161-264) -/

/-- One `LRUKReplacer::Node`: frame id, access count, evictable flag.
The `prev_`/`next_` pointers are represented by the node's position in one
of the two segment lists below. -/
structure RNode where
  frame_id : Int
  count : Nat
  evictable : Bool
deriving DecidableEq

/-- `LRUKReplacer` state.  `cacheL` is the segment between the `head_` and
`middle_` sentinels (frames accessed at least `k` times), `histL` the
segment between `middle_` and `tail_` (fewer than `k` accesses); the front
of each list is the node right after the sentinel, i.e. the oldest one.
`frame_map_` is implicit: a frame is tracked iff a node with its id is in
one of the two lists.  `size` is `List::size_`. -/
structure Replacer where
  k : Nat
  replacer_size : Nat
  cacheL : List RNode
  histL : List RNode
  size : Nat
deriving DecidableEq

/-- Error kinds of the replacer (`throw` sites in `lru_k_replacer.cpp`);
`SetEvictable` throws a runtime error when the frame is unknown
(`FrameNotFound`), `Remove` throws on a non-evictable frame
(`NotEvictable`). -/
inductive RepErr where
  | FrameNotFound
  | NotEvictable
deriving DecidableEq

/-- `frame_map_` lookup (`LRUKReplacer::Find`, header lines 143-149): the
node holding `fid`, if the frame is tracked. -/
def findNode (s : Replacer) (fid : Int) : Option RNode :=
  match s.cacheL.find? (fun n => n.frame_id == fid) with
  | some n => some n
  | none => s.histL.find? (fun n => n.frame_id == fid)

/-- Unlink the (first) node carrying `fid` from a segment list, as
`node->prev_->next_ = node->next_; ...` does for the node object. -/
def eraseFid : List RNode → Int → List RNode
  | [], _ => []
  | n :: t, fid => if n.frame_id = fid then t else n :: eraseFid t fid

/-- Number of evictable nodes in a list. -/
def evCount : List RNode → Nat
  | [] => 0
  | n :: t => (if n.evictable then 1 else 0) + evCount t

/-- `List::Remove` (header lines 215-223): unlink the node from whichever
segment holds it and do `size_--` when it is evictable (the C++ decrement
is unguarded; `Nat` subtraction agrees with it on every reachable state,
where `size` counts the evictable nodes). -/
def listRemove (s : Replacer) (nd : RNode) : Replacer :=
  { s with
    cacheL := eraseFid s.cacheL nd.frame_id,
    histL := eraseFid s.histL nd.frame_id,
    size := if nd.evictable then s.size - 1 else s.size }

/-- `List::InsertCacheList` (header lines 228-236): link the node right
before the `middle_` sentinel, i.e. at the back of the cache segment. -/
def insertCacheList (s : Replacer) (nd : RNode) : Replacer :=
  { s with
    cacheL := s.cacheL ++ [nd],
    size := if nd.evictable then s.size + 1 else s.size }

/-- `List::InsertHistoryList` (header lines 241-249): link the node right
before the `tail_` sentinel, i.e. at the back of the history segment. -/
def insertHistoryList (s : Replacer) (nd : RNode) : Replacer :=
  { s with
    histL := s.histL ++ [nd],
    size := if nd.evictable then s.size + 1 else s.size }

/-- `List::DecrementSize` (header lines 209-213), with its `size_ > 0`
guard. -/
def decrementSize (n : Nat) : Nat := if n > 0 then n - 1 else n

/-- `LRUKReplacer::LRUKReplacer(num_frames, k)`: empty list, size 0. -/
def lruInit (num_frames k : Nat) : Replacer :=
  { k := k, replacer_size := num_frames, cacheL := [], histL := [], size := 0 }

/-- `LRUKReplacer::RecordAccess` (`lru_k_replacer.cpp` lines 47-71).
Note: the source performs no validity check on `frame_id` whatsoever, so
the embedding is a total function with no error outcome.  A tracked frame
gets its count incremented and is re-linked at the back of the segment
chosen by `count >= k`; an unknown frame gets a fresh node with count 1
(the `Node(frame_id)` constructor) placed by the same test. -/
def recordAccess (s : Replacer) (fid : Int) : Replacer :=
  match findNode s fid with
  | some nd =>
    let nd' : RNode := { nd with count := nd.count + 1 }
    let s1 := listRemove s nd
    if nd'.count ≥ s.k then insertCacheList s1 nd' else insertHistoryList s1 nd'
  | none =>
    let nd : RNode := { frame_id := fid, count := 1, evictable := false }
    if nd.count ≥ s.k then insertCacheList s nd else insertHistoryList s nd

/-- `LRUKReplacer::Evict` (cpp lines 19-45): scan the history segment
front to back for the first evictable node, then the cache segment; on a
hit, unlink the node and erase it from `frame_map_`. -/
def evict (s : Replacer) : Option Int × Replacer :=
  match s.histL.find? (fun n => n.evictable) with
  | some nd => (some nd.frame_id, listRemove s nd)
  | none =>
    match s.cacheL.find? (fun n => n.evictable) with
    | some nd => (some nd.frame_id, listRemove s nd)
    | none => (none, s)

/-- Set the evictable flag of the node carrying `fid` (the C++ mutates the
single shared node object; here the update is applied in whichever list
holds it). -/
def setEvNode (l : List RNode) (fid : Int) (b : Bool) : List RNode :=
  l.map (fun n => if n.frame_id = fid then { n with evictable := b } else n)

/-- `LRUKReplacer::SetEvictable` (cpp lines 73-89).  Unknown frame: throw
(`FrameNotFound`), state unchanged.  The two successive `if`s of the
source are exclusive (their conditions differ on `set_evictable`), so they
are rendered as a chained conditional. -/
def setEvictable (s : Replacer) (fid : Int) (b : Bool) : Option RepErr × Replacer :=
  match findNode s fid with
  | none => (some RepErr.FrameNotFound, s)
  | some nd =>
    if !nd.evictable && b then
      (none, { s with
        cacheL := setEvNode s.cacheL fid true,
        histL := setEvNode s.histL fid true,
        size := s.size + 1 })
    else if nd.evictable && !b then
      (none, { s with
        cacheL := setEvNode s.cacheL fid false,
        histL := setEvNode s.histL fid false,
        size := decrementSize s.size })
    else (none, s)

/-- `LRUKReplacer::Remove` (cpp lines 91-104): unknown frame is a silent
no-op; a tracked non-evictable frame throws (`NotEvictable`) with the
state untouched; otherwise the node is unlinked and erased from the map. -/
def removeFrame (s : Replacer) (fid : Int) : Option RepErr × Replacer :=
  match findNode s fid with
  | none => (none, s)
  | some nd =>
    if !nd.evictable then (some RepErr.NotEvictable, s)
    else (none, listRemove s nd)

/-- `LRUKReplacer::Size` (cpp lines 106-109). -/
def replacerSize (s : Replacer) : Nat := s.size

/-- All tracked nodes (the contents of `frame_map_`). -/
def allNodes (s : Replacer) : List RNode := s.cacheL ++ s.histL

/-- Replacer states reachable through the public interface from a freshly
constructed replacer. -/
inductive Reach : Replacer → Prop where
  | init (n k : Nat) : Reach (lruInit n k)
  | record {s : Replacer} (fid : Int) : Reach s → Reach (recordAccess s fid)
  | setEv {s : Replacer} (fid : Int) (b : Bool) : Reach s → Reach (setEvictable s fid b).2
  | evictStep {s : Replacer} : Reach s → Reach (evict s).2
  | removeStep {s : Replacer} (fid : Int) : Reach s → Reach (removeFrame s fid).2

/-- Invariant bundle of the replacer: the history segment holds exactly
the nodes with fewer than `k` accesses, frame ids are unique, and `size_`
counts the evictable nodes. -/
structure WFr (s : Replacer) : Prop where
  histLt : ∀ nd ∈ s.histL, nd.count < s.k
  cacheGe : ∀ nd ∈ s.cacheL, s.k ≤ nd.count
  nodup : ((allNodes s).map RNode.frame_id).Nodup
  sizeEq : s.size = evCount (allNodes s)

/-! ## List indexing helpers

`getDef l i d` is `l[i]` with default `d` (the C++ `dir_[i]` / arena
dereference), `setNth l i a` is `l[i] = a`.  Own recursions keep the index
lemmas elementary. -/

def getDef {α : Type} : List α → Nat → α → α
  | [], _, d => d
  | a :: _, 0, _ => a
  | _ :: t, i + 1, d => getDef t i d

def setNth {α : Type} : List α → Nat → α → List α
  | [], _, _ => []
  | _ :: t, 0, b => b :: t
  | a :: t, i + 1, b => a :: setNth t i b

/-! ## Extendible hash table: data model (`extendible_hash_table.cpp`)

`std::shared_ptr<Bucket>` identity is modelled by an index into a bucket
arena `buckets`; two directory slots holding the same index model two
`shared_ptr`s to the same object, and in-place mutation of a shared bucket
is an update of its arena cell.  A null pointer in the directory is
`none`. -/

/-- `ExtendibleHashTable::Bucket` (cpp lines 432-433): capacity `size_`,
local depth `depth_`, and the `std::list` of key-value pairs. -/
structure Bucket (K V : Type) where
  size : Nat
  depth : Nat
  list : List (K × V)
deriving DecidableEq

/-- `ExtendibleHashTable` state: `global_depth_`, `bucket_size_`,
`num_buckets_`, the bucket arena, and the directory `dir_` of bucket
pointers. -/
structure EHT (K V : Type) where
  global_depth : Nat
  bucket_size : Nat
  num_buckets : Nat
  buckets : List (Bucket K V)
  dir : List (Option Nat)
deriving DecidableEq

variable {K V : Type}

/-- First value stored under `key` in a bucket's pair list
(`Bucket::Find`, cpp lines 436-444: linear scan, first match). -/
def lookupKV [DecidableEq K] : List (K × V) → K → Option V
  | [], _ => none
  | p :: t, k => if p.1 = k then some p.2 else lookupKV t k

/-- Whether some pair with key `k` is present (the `find_if` tests in
`Bucket::Insert` / `Bucket::Remove`). -/
def containsKey [DecidableEq K] : List (K × V) → K → Bool
  | [], _ => false
  | p :: t, k => if p.1 = k then true else containsKey t k

/-- `it->second = value` on the first pair with key `k`. -/
def setVal [DecidableEq K] : List (K × V) → K → V → List (K × V)
  | [], _, _ => []
  | p :: t, k, v => if p.1 = k then (p.1, v) :: t else p :: setVal t k v

/-- Erase the first pair with key `k` (`Bucket::Remove`, cpp lines
446-454). -/
def eraseKV [DecidableEq K] : List (K × V) → K → List (K × V)
  | [], _ => []
  | p :: t, k => if p.1 = k then t else p :: eraseKV t k

/-- Modelled from the spec: `Bucket::IsFull` lives in the missing header
`extendible_hash_table.h`; per the spec, "a bucket holding
`bucketCapacity` entries cannot accept a new distinct key without first
splitting", so a bucket is full exactly when its list holds `size_`
entries. -/
def Bucket.isFull (b : Bucket K V) : Bool := b.list.length == b.size

/-- `Bucket::Insert` (cpp lines 456-468): overwrite on a present key,
refuse (`none`) when full, otherwise append.  `some b'` is the `true`
return together with the mutated bucket. -/
def Bucket.insertB [DecidableEq K] (b : Bucket K V) (k : K) (v : V) :
    Option (Bucket K V) :=
  if containsKey b.list k then some { b with list := setVal b.list k v }
  else if b.isFull then none
  else some { b with list := b.list ++ [(k, v)] }

/-- `Bucket::Find`. -/
def Bucket.findB [DecidableEq K] (b : Bucket K V) (k : K) : Option V :=
  lookupKV b.list k

/-- `Bucket::Remove`: whether a pair was erased, and the mutated bucket. -/
def Bucket.removeB [DecidableEq K] (b : Bucket K V) (k : K) :
    Bool × Bucket K V :=
  if containsKey b.list k then (true, { b with list := eraseKV b.list k })
  else (false, b)

/-- `ExtendibleHashTable(bucket_size)` (cpp lines 291-295): depth 0, one
empty bucket, one directory slot pointing at it. -/
def newEHT (K V : Type) (cap : Nat) : EHT K V :=
  { global_depth := 0, bucket_size := cap, num_buckets := 1,
    buckets := [{ size := cap, depth := 0, list := [] }],
    dir := [some 0] }

/-- `IndexOf` (cpp lines 297-301): `hash(key) & ((1 << global_depth_) - 1)`. -/
def indexOf (hash : K → Nat) (s : EHT K V) (k : K) : Nat :=
  hash k &&& ((1 <<< s.global_depth) - 1)

/-- The arena index stored in directory slot `i` (`dir_[i]` as a pointer
value); out-of-range reads give the null pointer, which under the
reachability invariant never happens where the source dereferences. -/
def slotPtr (s : EHT K V) (i : Nat) : Option Nat := getDef s.dir i none

/-- Dereference an arena index (`*ptr`).  The default cell stands for the
unreachable dereference of an invalid pointer. -/
def bucketAt (s : EHT K V) (j : Nat) : Bucket K V :=
  getDef s.buckets j { size := s.bucket_size, depth := 0, list := [] }

/-- The bucket object behind directory slot `i` (`dir_[i]` dereferenced);
a null slot also falls back to the default cell. -/
def dirBucket (s : EHT K V) (i : Nat) : Bucket K V :=
  match slotPtr s i with
  | some j => bucketAt s j
  | none => { size := s.bucket_size, depth := 0, list := [] }

/-- `GetGlobalDepth` (cpp lines 303-312). -/
def getGlobalDepthT (s : EHT K V) : Nat := s.global_depth

/-- `GetLocalDepth(dir_index)` (cpp lines 314-323): `dir_[i]->GetDepth()`. -/
def getLocalDepthT (s : EHT K V) (i : Nat) : Nat := (dirBucket s i).depth

/-- `GetNumBuckets` (cpp lines 325-334). -/
def getNumBucketsT (s : EHT K V) : Nat := s.num_buckets

/-- `Find` (cpp lines 336-348), including its two early-return guards
(`index >= dir_.size()` and `bucket == nullptr`). -/
def findT [DecidableEq K] (hash : K → Nat) (s : EHT K V) (k : K) : Option V :=
  let index := indexOf hash s k
  if index ≥ s.dir.length then none
  else
    match slotPtr s index with
    | none => none
    | some j => (bucketAt s j).findB k

/-- `Remove` (cpp lines 350-362).  Note the source guard is `index >
dir_.size()` (not `>=`); at `index = dir_.size()` the C++ dereference of
`dir_[index]` is out of range, which the model reads as the null slot.
Both guards are unreachable in well-formed states (claim C10). -/
def removeT [DecidableEq K] (hash : K → Nat) (s : EHT K V) (k : K) :
    Bool × EHT K V :=
  let index := indexOf hash s k
  if index > s.dir.length then (false, s)
  else
    match slotPtr s index with
    | none => (false, s)
    | some j =>
      let r := (bucketAt s j).removeB k
      (r.1, { s with buckets := setNth s.buckets j r.2 })

/-- `ExpandTable` (cpp lines 380-389): `global_depth_` grows by one, the
directory is resized to twice its length (new cells null) and every new
cell `i + old_size` is then assigned `dir_[i]`, which nets out to
appending a copy of the directory to itself. -/
def expandTable (s : EHT K V) : EHT K V :=
  { s with global_depth := s.global_depth + 1, dir := s.dir ++ s.dir }

/-- The repointing loop at the end of `SplitBucket` (cpp lines 419-423):
every slot `i` whose pointer equals the split bucket and whose bit
`depth - 1` is set (`(i >> (GetDepth() - 1)) & 1`) is redirected to the
new sibling.  `i` is the index of the first cell of the remaining list. -/
def repoint (bj newIdx dpos : Nat) : Nat → List (Option Nat) → List (Option Nat)
  | _, [] => []
  | i, o :: t =>
    (if o = some bj ∧ (i >>> dpos) &&& 1 = 1 then some newIdx else o) ::
      repoint bj newIdx dpos (i + 1) t

/-- The items of the split bucket `b` that move to the new sibling: those
whose `IndexOf` has bit `GetDepth() - 1` set, tested in the source as
`index & (1 << (bucket->GetDepth() - 1))` after the depth increment, i.e.
at bit position `b.depth` (pre-increment).  The erase/insert walk of the
source preserves the original order on both sides, i.e. it filters. -/
def movedList [DecidableEq K] (hash : K → Nat) (s : EHT K V) (b : Bucket K V) :
    List (K × V) :=
  b.list.filter (fun p => (indexOf hash s p.1 &&& (1 <<< ((b.depth + 1) - 1))) != 0)

/-- The items that stay in the split bucket (bit clear). -/
def stayedList [DecidableEq K] (hash : K → Nat) (s : EHT K V) (b : Bucket K V) :
    List (K × V) :=
  b.list.filter (fun p => (indexOf hash s p.1 &&& (1 <<< ((b.depth + 1) - 1))) == 0)

/-- `SplitBucket` (cpp lines 391-424) on the bucket at arena index `bj`:
create the sibling with depth `GetDepth() + 1`, increment the old bucket's
depth, move every item whose `IndexOf` has the newly significant bit set
into the sibling, increment `num_buckets_`, and repoint the directory
slots. -/
def splitBucket [DecidableEq K] (hash : K → Nat) (s : EHT K V) (bj : Nat) :
    EHT K V :=
  let b := bucketAt s bj
  let d := b.depth + 1
  let newIdx := s.buckets.length
  { s with
    buckets := setNth s.buckets bj { b with depth := d, list := stayedList hash s b } ++
      [{ size := s.bucket_size, depth := d, list := movedList hash s b }],
    dir := repoint bj newIdx (d - 1) 0 s.dir,
    num_buckets := s.num_buckets + 1 }

/-- One failing iteration of the `Insert` loop body (cpp lines 369-375):
if the routed bucket's local depth equals the global depth, expand the
table and recompute `index`; then split the bucket the (possibly
recomputed) slot points to.  Returns the new state and the carried
`index` variable. -/
def insertFail [DecidableEq K] (hash : K → Nat) (s : EHT K V) (index : Nat)
    (k : K) : EHT K V × Nat :=
  let s1 := if (dirBucket s index).depth = s.global_depth then expandTable s else s
  let index1 := if (dirBucket s index).depth = s.global_depth
    then indexOf hash (expandTable s) k else index
  let s2 := match slotPtr s1 index1 with
    | some bj => splitBucket hash s1 bj
    | none => s1
  (s2, index1)

/-- The `while (!dir_[index]->Insert(key, value))` loop of `Insert` (cpp
lines 364-377), with explicit fuel (`none` = the loop has not finished
within `fuel` iterations).  `index` is recomputed only after a directory
expansion, exactly as in the source; `SplitBucket` never changes
`global_depth_`, so the carried `index` stays equal to `IndexOf(key)`. -/
def insertGo [DecidableEq K] (hash : K → Nat) :
    Nat → EHT K V → Nat → K → V → Option (EHT K V)
  | 0, _, _, _, _ => none
  | fuel + 1, s, index, k, v =>
    match (dirBucket s index).insertB k v with
    | some b' =>
      match slotPtr s index with
      | some j => some { s with buckets := setNth s.buckets j b' }
      | none => some s
    | none =>
      insertGo hash fuel (insertFail hash s index k).1 (insertFail hash s index k).2 k v

/-- `Insert` (cpp lines 364-377). -/
def insertT [DecidableEq K] (hash : K → Nat) (fuel : Nat) (s : EHT K V)
    (k : K) (v : V) : Option (EHT K V) :=
  insertGo hash fuel s (indexOf hash s k) k v

/-- Abstraction: the value the table associates to `k` is the first match
in the bucket its routed slot points to. -/
def absMap [DecidableEq K] (hash : K → Nat) (s : EHT K V) (k : K) : Option V :=
  (dirBucket s (indexOf hash s k)).findB k

/-- All keys stored anywhere in the bucket arena. -/
def tableKeys (s : EHT K V) : List K :=
  (s.buckets.map (fun b => b.list.map Prod.fst)).flatten

/-- Trace operations against the table. -/
inductive EOp (K V : Type) where
  | ins (k : K) (v : V)
  | rem (k : K)

/-- One public mutating call. -/
def applyOp [DecidableEq K] (hash : K → Nat) (fuel : Nat) (s : EHT K V) :
    EOp K V → Option (EHT K V)
  | EOp.ins k v => insertT hash fuel s k v
  | EOp.rem k => some (removeT hash s k).2

/-- Run a trace from a given state. -/
def runFrom [DecidableEq K] (hash : K → Nat) (fuel : Nat) :
    EHT K V → List (EOp K V) → Option (EHT K V)
  | s, [] => some s
  | s, op :: rest =>
    match applyOp hash fuel s op with
    | some s' => runFrom hash fuel s' rest
    | none => none

/-- Run a trace from a freshly constructed table. -/
def runOps [DecidableEq K] (hash : K → Nat) (fuel cap : Nat)
    (ops : List (EOp K V)) : Option (EHT K V) :=
  runFrom hash fuel (newEHT K V cap) ops

/-- The reference map semantics of a trace: last insert wins, remove
deletes. -/
def specStep [DecidableEq K] (m : K → Option V) : EOp K V → K → Option V
  | EOp.ins k v => fun q => if q = k then some v else m q
  | EOp.rem k => fun q => if q = k then none else m q

/-- Reference semantics of a whole trace, from a given map. -/
def specFrom [DecidableEq K] : (K → Option V) → List (EOp K V) → K → Option V
  | m, [] => m
  | m, op :: rest => specFrom (specStep m op) rest

/-- Reference semantics from the empty map. -/
def specOf [DecidableEq K] (ops : List (EOp K V)) : K → Option V :=
  specFrom (fun _ => none) ops

/-- Well-formedness of a table state: the directory has `2 ^ global_depth`
slots, every slot is a live pointer into the arena, local depths are
bounded by the global depth, every stored key matches its slot on the low
`localDepth` bits, slots share a bucket exactly when they agree on those
bits, keys are unique inside a bucket, and every bucket was built with the
table's capacity. -/
structure WFt [DecidableEq K] (hash : K → Nat) (s : EHT K V) : Prop where
  dlen : s.dir.length = 2 ^ s.global_depth
  slots : ∀ i, i < s.dir.length → ∃ j, slotPtr s i = some j ∧ j < s.buckets.length
  depthLe : ∀ i, i < s.dir.length → (dirBucket s i).depth ≤ s.global_depth
  pat : ∀ i, i < s.dir.length → ∀ x ∈ (dirBucket s i).list.map Prod.fst,
    hash x % 2 ^ (dirBucket s i).depth = i % 2 ^ (dirBucket s i).depth
  share : ∀ i i', i < s.dir.length → i' < s.dir.length →
    (slotPtr s i = slotPtr s i' ↔
      i % 2 ^ (dirBucket s i).depth = i' % 2 ^ (dirBucket s i).depth)
  keysN : ∀ i, i < s.dir.length → ((dirBucket s i).list.map Prod.fst).Nodup
  capEq : ∀ i, i < s.dir.length → (dirBucket s i).size = s.bucket_size

/-! ## Concrete states for the spec's worked scenarios -/

/-- Identity hash on natural keys: `std::hash<int>` on the nonnegative
ints of the scenarios. -/
def idHash : Nat → Nat := fun k => k

/-- C6 scenario, after `RecordAccess(1), (2), (3), (1)` with `k = 2`. -/
def c6afterRA : Replacer :=
  recordAccess (recordAccess (recordAccess (recordAccess (lruInit 7 2) 1) 2) 3) 1

/-- C6 scenario, after additionally marking frames 1, 2, 3 evictable. -/
def c6ready : Replacer :=
  (setEvictable (setEvictable (setEvictable c6afterRA 1 true).2 2 true).2 3 true).2

/-- C7 scenario trace: capacity-2 table, identity hash, three inserts. -/
def c7run : Option (EHT Nat String) :=
  runOps idHash 10 2 [EOp.ins 0 "a", EOp.ins 1 "b", EOp.ins 2 "c"]

/-- The final table of the C7 scenario. -/
def c7final : EHT Nat String :=
  { global_depth := 1, bucket_size := 2, num_buckets := 2,
    buckets := [{ size := 2, depth := 1, list := [(0, "a"), (2, "c")] },
                { size := 2, depth := 1, list := [(1, "b")] }],
    dir := [some 0, some 1] }

/-- C5 counterexample start state: capacity-2 table, identity hash, holding
keys `0` and `1024` (which collide on the low 10 hash bits), reached by
two plain inserts. -/
def c5start : EHT Nat Nat :=
  { global_depth := 0, bucket_size := 2, num_buckets := 1,
    buckets := [{ size := 2, depth := 0, list := [(0, 10), (1024, 11)] }],
    dir := [some 0] }

/-- Witness trace for claim C1: two inserts of key 0 (last value 12), an
insert and remove of key 1, and an insert of key 2. -/
def c1ops : List (EOp Nat Nat) :=
  [EOp.ins 0 10, EOp.ins 1 11, EOp.ins 0 12, EOp.rem 1, EOp.ins 2 13]

/-- The state the C1 witness trace reaches. -/
def c1state : EHT Nat Nat :=
  match runOps idHash 10 2 c1ops with
  | some s => s
  | none => newEHT Nat Nat 2

/-- Witness state for claim C9: a full capacity-2 bucket holding keys 0
and 1. -/
def c9state : EHT Nat Nat :=
  match runOps idHash 5 2 [EOp.ins 0 1, EOp.ins 1 2] with
  | some s => s
  | none => newEHT Nat Nat 2

/-- Witness trace for claim C10. -/
def c10ops : List (EOp Nat Nat) := [EOp.ins 0 1, EOp.ins 1 2, EOp.ins 2 3]

/-- The state the C10 witness trace reaches. -/
def c10state : EHT Nat Nat :=
  match runOps idHash 10 2 c10ops with
  | some s => s
  | none => newEHT Nat Nat 2

/-- Witness state for claim C3: `k = 2`, frame 1 accessed once and marked
evictable. -/
def c3wit : Replacer := (setEvictable (recordAccess (lruInit 3 2) 1) 1 true).2

/-- Witness state for claim C4. -/
def c4wit : Replacer := (setEvictable (recordAccess (lruInit 3 2) 1) 1 true).2

/-- Witness state for claim C8. -/
def c8wit : Replacer := (setEvictable (recordAccess (lruInit 3 2) 1) 1 true).2

/-! ## Theorems.  First, elementary list lemmas for the replacer. -/

theorem mem_eraseFid {l : List RNode} {fid : Int} {x : RNode}
    (h : x ∈ eraseFid l fid) : x ∈ l := by
  induction l with
  | nil => simp [eraseFid] at h
  | cons a t ih =>
    by_cases ha : a.frame_id = fid
    · simp only [eraseFid, if_pos ha] at h
      exact List.mem_cons_of_mem _ h
    · simp only [eraseFid, if_neg ha, List.mem_cons] at h
      rcases h with h | h
      · exact h ▸ List.mem_cons_self _ _
      · exact List.mem_cons_of_mem _ (ih h)

theorem eraseFid_sublist (l : List RNode) (fid : Int) :
    (eraseFid l fid).Sublist l := by
  induction l with
  | nil => simp [eraseFid]
  | cons a t ih =>
    by_cases ha : a.frame_id = fid
    · simp only [eraseFid, if_pos ha]
      exact List.sublist_cons_of_sublist _ (List.Sublist.refl t)
    · simp only [eraseFid, if_neg ha]
      exact List.Sublist.cons₂ _ ih

theorem eraseFid_of_not_mem {l : List RNode} {fid : Int}
    (h : fid ∉ l.map RNode.frame_id) : eraseFid l fid = l := by
  induction l with
  | nil => rfl
  | cons a t ih =>
    simp only [List.map_cons, List.mem_cons, not_or] at h
    simp only [eraseFid, if_neg (Ne.symm h.1)]
    rw [ih h.2]

theorem not_mem_map_eraseFid {l : List RNode} {fid : Int}
    (h : (l.map RNode.frame_id).Nodup) :
    fid ∉ (eraseFid l fid).map RNode.frame_id := by
  induction l with
  | nil => simp [eraseFid]
  | cons a t ih =>
    simp only [List.map_cons, List.nodup_cons] at h
    by_cases ha : a.frame_id = fid
    · simp only [eraseFid, if_pos ha]
      exact fun hm => h.1 (ha ▸ hm)
    · simp only [eraseFid, if_neg ha, List.map_cons, List.mem_cons, not_or]
      exact ⟨Ne.symm ha, ih h.2⟩

theorem evCount_append (l1 l2 : List RNode) :
    evCount (l1 ++ l2) = evCount l1 + evCount l2 := by
  induction l1 with
  | nil => simp [evCount]
  | cons a t ih => simp [evCount, ih]; omega

theorem evCount_eraseFid_mem {l : List RNode} {nd : RNode}
    (hn : (l.map RNode.frame_id).Nodup) (hm : nd ∈ l) :
    evCount l = evCount (eraseFid l nd.frame_id) +
      (if nd.evictable then 1 else 0) := by
  induction l with
  | nil => cases hm
  | cons a t ih =>
    simp only [List.map_cons, List.nodup_cons] at hn
    by_cases ha : a.frame_id = nd.frame_id
    · have hand : nd = a := by
        rcases List.mem_cons.1 hm with h | h
        · exact h
        · exact absurd (ha ▸ List.mem_map_of_mem RNode.frame_id h) hn.1
      subst hand
      rw [eraseFid, if_pos rfl]
      simp only [evCount]
      omega
    · have hmt : nd ∈ t := by
        rcases List.mem_cons.1 hm with h | h
        · exact absurd (h ▸ rfl) ha
        · exact h
      simp only [eraseFid, if_neg ha, evCount, ih hn.2 hmt]
      omega

theorem evCount_pos_of_mem {l : List RNode} {nd : RNode}
    (hm : nd ∈ l) (he : nd.evictable = true) : 1 ≤ evCount l := by
  induction l with
  | nil => cases hm
  | cons a t ih =>
    rcases List.mem_cons.1 hm with h | h
    · subst h; simp [evCount, he]
    · have := ih h
      simp only [evCount]
      omega

theorem find?_fid_none_of_not_mem {l : List RNode} {fid : Int}
    (h : fid ∉ l.map RNode.frame_id) :
    l.find? (fun n => n.frame_id == fid) = none := by
  rw [List.find?_eq_none]
  intro x hx
  simp only [beq_iff_eq]
  intro hfix
  exact h (hfix ▸ List.mem_map_of_mem RNode.frame_id hx)

theorem find?_eraseFid_ne {l : List RNode} {fid fid' : Int}
    (h : fid' ≠ fid) :
    (eraseFid l fid).find? (fun n => n.frame_id == fid') =
      l.find? (fun n => n.frame_id == fid') := by
  induction l with
  | nil => rfl
  | cons a t ih =>
    by_cases ha : a.frame_id = fid
    · have hne : (a.frame_id == fid') = false := by
        simp [ha, Ne.symm h]
      simp [eraseFid, if_pos ha, List.find?_cons, hne]
    · simp only [eraseFid, if_neg ha]
      by_cases ha' : a.frame_id = fid'
      · simp [List.find?_cons, ha']
      · have hne : (a.frame_id == fid') = false := by simp [ha']
        simp [List.find?_cons, hne, ih]

/-! Facts about `findNode`. -/

theorem findNode_cases {s : Replacer} {fid : Int} {nd : RNode}
    (h : findNode s fid = some nd) :
    (s.cacheL.find? (fun n => n.frame_id == fid) = some nd ∧ nd ∈ s.cacheL) ∨
    (s.cacheL.find? (fun n => n.frame_id == fid) = none ∧
      s.histL.find? (fun n => n.frame_id == fid) = some nd ∧ nd ∈ s.histL) := by
  unfold findNode at h
  cases hc : s.cacheL.find? (fun n => n.frame_id == fid) with
  | some m =>
    rw [hc] at h
    have h' : some m = some nd := h
    have hmn : m = nd := by injection h'
    subst hmn
    exact Or.inl ⟨rfl, List.mem_of_find?_eq_some hc⟩
  | none =>
    rw [hc] at h
    exact Or.inr ⟨rfl, h, List.mem_of_find?_eq_some h⟩

theorem findNode_fid {s : Replacer} {fid : Int} {nd : RNode}
    (h : findNode s fid = some nd) : nd.frame_id = fid := by
  rcases findNode_cases h with ⟨h1, _⟩ | ⟨_, h1, _⟩ <;>
    simpa using List.find?_some h1

theorem findNode_mem {s : Replacer} {fid : Int} {nd : RNode}
    (h : findNode s fid = some nd) : nd ∈ allNodes s := by
  rcases findNode_cases h with ⟨_, h2⟩ | ⟨_, _, h2⟩ <;>
    simp [allNodes, h2]

theorem findNode_none_iff {s : Replacer} {fid : Int} :
    findNode s fid = none ↔ fid ∉ (allNodes s).map RNode.frame_id := by
  unfold findNode
  constructor
  · intro h
    cases hc : s.cacheL.find? (fun n => n.frame_id == fid) with
    | some m => rw [hc] at h; cases h
    | none =>
      rw [hc] at h
      rw [List.find?_eq_none] at hc h
      simp only [allNodes, List.map_append, List.mem_append, not_or]
      constructor <;> · intro hm
                        rcases List.mem_map.1 hm with ⟨x, hx, hfx⟩
                        first
                        | exact absurd (by simp [hfx]) (hc x hx)
                        | exact absurd (by simp [hfx]) (h x hx)
  · intro h
    simp only [allNodes, List.map_append, List.mem_append, not_or] at h
    rw [find?_fid_none_of_not_mem h.1, find?_fid_none_of_not_mem h.2]

/-! Well-formedness is preserved by every public replacer operation. -/

theorem nodup_parts {s : Replacer} (hwf : WFr s) :
    (s.cacheL.map RNode.frame_id).Nodup ∧ (s.histL.map RNode.frame_id).Nodup ∧
      (s.cacheL.map RNode.frame_id).Disjoint (s.histL.map RNode.frame_id) := by
  have := hwf.nodup
  simp only [allNodes, List.map_append, List.nodup_append] at this
  exact this

theorem WF_listRemove {s : Replacer} {nd : RNode} (hwf : WFr s)
    (hm : nd ∈ allNodes s) : WFr (listRemove s nd) := by
  obtain ⟨hc, hh, hd⟩ := nodup_parts hwf
  have hsz := hwf.sizeEq
  rw [allNodes, evCount_append] at hsz
  rcases List.mem_append.1 hm with hmc | hmh
  · -- node lives in the cache segment
    have hfidh : nd.frame_id ∉ s.histL.map RNode.frame_id :=
      hd (List.mem_map_of_mem RNode.frame_id hmc)
    have hehist : eraseFid s.histL nd.frame_id = s.histL :=
      eraseFid_of_not_mem hfidh
    have hcnt := evCount_eraseFid_mem hc hmc
    refine ⟨?_, ?_, ?_, ?_⟩
    · intro x hx; exact hwf.histLt x (by simpa [listRemove, hehist] using hx)
    · intro x hx
      exact hwf.cacheGe x (mem_eraseFid (by simpa [listRemove] using hx))
    · simp only [allNodes, listRemove, hehist, List.map_append, List.nodup_append]
      refine ⟨((eraseFid_sublist _ _).map _).nodup hc, hh, ?_⟩
      intro a ha
      exact hd (((eraseFid_sublist _ _).map RNode.frame_id).subset ha)
    · have hpos : nd.evictable = true → 1 ≤ evCount s.cacheL :=
        fun he => evCount_pos_of_mem hmc he
      simp only [allNodes, listRemove, hehist, evCount_append]
      cases he : nd.evictable <;> simp [he] at hcnt ⊢ <;> omega
  · -- node lives in the history segment

    have hfidc : nd.frame_id ∉ s.cacheL.map RNode.frame_id :=
      fun hx => hd hx (List.mem_map_of_mem RNode.frame_id hmh)
    have hecache : eraseFid s.cacheL nd.frame_id = s.cacheL :=
      eraseFid_of_not_mem hfidc
    have hcnt := evCount_eraseFid_mem hh hmh
    refine ⟨?_, ?_, ?_, ?_⟩
    · intro x hx
      exact hwf.histLt x (mem_eraseFid (by simpa [listRemove] using hx))
    · intro x hx; exact hwf.cacheGe x (by simpa [listRemove, hecache] using hx)
    · simp only [allNodes, listRemove, hecache, List.map_append, List.nodup_append]
      refine ⟨hc, ((eraseFid_sublist _ _).map _).nodup hh, ?_⟩
      intro a ha hb
      exact hd ha (((eraseFid_sublist _ _).map RNode.frame_id).subset hb)
    · have hpos : nd.evictable = true → 1 ≤ evCount s.histL :=
        fun he => evCount_pos_of_mem hmh he
      simp only [allNodes, listRemove, hecache, evCount_append]
      cases he : nd.evictable <;> simp [he] at hcnt ⊢ <;> omega

theorem WF_insertCache {s : Replacer} {nd : RNode} (hwf : WFr s)
    (hcnt : s.k ≤ nd.count) (hfid : nd.frame_id ∉ (allNodes s).map RNode.frame_id) :
    WFr (insertCacheList s nd) := by
  obtain ⟨hc, hh, hd⟩ := nodup_parts hwf
  simp only [allNodes, List.map_append, List.mem_append, not_or] at hfid
  refine ⟨?_, ?_, ?_, ?_⟩
  · intro x hx; exact hwf.histLt x (by simpa [insertCacheList] using hx)
  · intro x hx
    simp only [insertCacheList, List.mem_append, List.mem_singleton] at hx
    rcases hx with hx | hx
    · exact hwf.cacheGe x hx
    · simpa [hx] using hcnt
  · simp only [allNodes, insertCacheList, List.map_append, List.nodup_append,
      List.map_cons, List.map_nil]
    refine ⟨⟨hc, List.nodup_singleton _, ?_⟩, hh, ?_⟩
    · intro a ha hb
      rw [List.mem_singleton] at hb
      exact hfid.1 (hb ▸ ha)
    · intro a ha
      rcases List.mem_append.1 ha with ha | ha
      · exact hd ha
      · rw [List.mem_singleton] at ha
        exact ha ▸ hfid.2
  · have := hwf.sizeEq
    simp only [allNodes, evCount_append] at this
    simp only [allNodes, insertCacheList, evCount_append, evCount]
    cases he : nd.evictable <;> simp [he] <;> omega

theorem WF_insertHist {s : Replacer} {nd : RNode} (hwf : WFr s)
    (hcnt : nd.count < s.k) (hfid : nd.frame_id ∉ (allNodes s).map RNode.frame_id) :
    WFr (insertHistoryList s nd) := by
  obtain ⟨hc, hh, hd⟩ := nodup_parts hwf
  simp only [allNodes, List.map_append, List.mem_append, not_or] at hfid
  refine ⟨?_, ?_, ?_, ?_⟩
  · intro x hx
    simp only [insertHistoryList, List.mem_append, List.mem_singleton] at hx
    rcases hx with hx | hx
    · exact hwf.histLt x hx
    · simpa [hx] using hcnt
  · intro x hx; exact hwf.cacheGe x (by simpa [insertHistoryList] using hx)
  · simp only [allNodes, insertHistoryList, List.map_append, List.nodup_append,
      List.map_cons, List.map_nil]
    refine ⟨hc, ⟨hh, List.nodup_singleton _, ?_⟩, ?_⟩
    · intro a ha hb
      rw [List.mem_singleton] at hb
      exact hfid.2 (hb ▸ ha)
    · intro a ha hb
      rcases List.mem_append.1 hb with hb | hb
      · exact hd ha hb
      · rw [List.mem_singleton] at hb
        exact hfid.1 (hb ▸ ha)
  · have := hwf.sizeEq
    simp only [allNodes, evCount_append] at this
    simp only [allNodes, insertHistoryList, evCount_append, evCount]
    cases he : nd.evictable <;> simp [he] <;> omega

theorem WF_recordAccess {s : Replacer} (fid : Int) (hwf : WFr s) :
    WFr (recordAccess s fid) := by
  unfold recordAccess
  cases hf : findNode s fid with
  | none =>
    have hfid : fid ∉ (allNodes s).map RNode.frame_id := findNode_none_iff.1 hf
    by_cases hk : 1 ≥ s.k
    · rw [if_pos hk]
      exact WF_insertCache hwf hk hfid
    · rw [if_neg hk]
      exact WF_insertHist hwf (by show (1 : Nat) < s.k; omega) hfid
  | some nd =>
    have hm : nd ∈ allNodes s := findNode_mem hf
    have hfideq : nd.frame_id = fid := findNode_fid hf
    have hwf1 : WFr (listRemove s nd) := WF_listRemove hwf hm
    obtain ⟨hc, hh, hd⟩ := nodup_parts hwf
    have hfid1 : nd.frame_id ∉ (allNodes (listRemove s nd)).map RNode.frame_id := by
      simp only [allNodes, listRemove, List.map_append, List.mem_append, not_or]
      rcases List.mem_append.1 hm with hmc | hmh
      · have hfidh : nd.frame_id ∉ s.histL.map RNode.frame_id :=
          hd (List.mem_map_of_mem RNode.frame_id hmc)
        rw [eraseFid_of_not_mem hfidh]
        exact ⟨not_mem_map_eraseFid hc, hfidh⟩
      · have hfidc : nd.frame_id ∉ s.cacheL.map RNode.frame_id :=
          fun hx => hd hx (List.mem_map_of_mem RNode.frame_id hmh)
        rw [eraseFid_of_not_mem hfidc]
        exact ⟨hfidc, not_mem_map_eraseFid hh⟩
    show WFr (if nd.count + 1 ≥ s.k
      then insertCacheList (listRemove s nd) { nd with count := nd.count + 1 }
      else insertHistoryList (listRemove s nd) { nd with count := nd.count + 1 })
    by_cases hk : nd.count + 1 ≥ s.k
    · rw [if_pos hk]
      exact WF_insertCache hwf1 hk (by show nd.frame_id ∉ _; exact hfid1)
    · rw [if_neg hk]
      exact WF_insertHist hwf1 (by show nd.count + 1 < s.k; omega)
        (by show nd.frame_id ∉ _; exact hfid1)

theorem WF_evict {s : Replacer} (hwf : WFr s) : WFr (evict s).2 := by
  unfold evict
  cases hfh : s.histL.find? (fun n => n.evictable) with
  | some nd =>
    exact WF_listRemove hwf (List.mem_append.2 (Or.inr (List.mem_of_find?_eq_some hfh)))
  | none =>
    cases hfc : s.cacheL.find? (fun n => n.evictable) with
    | some nd =>
      exact WF_listRemove hwf (List.mem_append.2 (Or.inl (List.mem_of_find?_eq_some hfc)))
    | none => exact hwf

theorem WF_removeFrame {s : Replacer} (fid : Int) (hwf : WFr s) :
    WFr (removeFrame s fid).2 := by
  unfold removeFrame
  cases hf : findNode s fid with
  | none => exact hwf
  | some nd =>
    show WFr ((if (!nd.evictable) = true then (some RepErr.NotEvictable, s)
      else (none, listRemove s nd)).2)
    by_cases he : nd.evictable
    · rw [if_neg (by simp [he])]
      exact WF_listRemove hwf (findNode_mem hf)
    · rw [if_pos (by simp [he])]
      exact hwf

/-! `setEvictable` preservation. -/

theorem setEvNode_map_fid (l : List RNode) (fid : Int) (b : Bool) :
    (setEvNode l fid b).map RNode.frame_id = l.map RNode.frame_id := by
  induction l with
  | nil => rfl
  | cons a t ih =>
    by_cases ha : a.frame_id = fid <;>
      simp [setEvNode, ha, ih ▸ (by simp [setEvNode] : (setEvNode t fid b).map RNode.frame_id = (setEvNode t fid b).map RNode.frame_id)] <;>
      simpa [setEvNode] using ih

theorem setEvNode_of_not_mem {l : List RNode} {fid : Int} {b : Bool}
    (h : fid ∉ l.map RNode.frame_id) : setEvNode l fid b = l := by
  induction l with
  | nil => rfl
  | cons a t ih =>
    simp only [List.map_cons, List.mem_cons, not_or] at h
    show (if a.frame_id = fid then { a with evictable := b } else a) ::
      setEvNode t fid b = a :: t
    rw [if_neg (Ne.symm h.1), ih h.2]

theorem evCount_setEvNode {l : List RNode} {fid : Int} {nd : RNode} {b : Bool}
    (hn : (l.map RNode.frame_id).Nodup)
    (hf : l.find? (fun n => n.frame_id == fid) = some nd) :
    evCount (setEvNode l fid b) + (if nd.evictable then 1 else 0) =
      evCount l + (if b then 1 else 0) := by
  induction l with
  | nil => cases hf
  | cons a t ih =>
    simp only [List.map_cons, List.nodup_cons] at hn
    show evCount ((if a.frame_id = fid then { a with evictable := b } else a) ::
      setEvNode t fid b) + _ = evCount (a :: t) + _
    by_cases ha : a.frame_id = fid
    · have hna : nd = a := by
        rw [List.find?_cons_of_pos _ (by simpa using ha)] at hf
        injection hf with h'
        exact h'.symm
      subst hna
      rw [if_pos ha, setEvNode_of_not_mem (ha ▸ hn.1)]
      simp only [evCount]
      cases b <;> cases he : nd.evictable <;> simp [he] <;> omega
    · have hf' : t.find? (fun n => n.frame_id == fid) = some nd := by
        rwa [List.find?_cons_of_neg _ (by simpa using ha)] at hf
      rw [if_neg ha]
      simp only [evCount]
      have := ih hn.2 hf'
      omega

theorem WF_setEvictable {s : Replacer} (fid : Int) (b : Bool) (hwf : WFr s) :
    WFr (setEvictable s fid b).2 := by
  unfold setEvictable
  cases hf : findNode s fid with
  | none => exact hwf
  | some nd =>
    obtain ⟨hc, hh, hd⟩ := nodup_parts hwf
    have hsz := hwf.sizeEq
    rw [allNodes, evCount_append] at hsz
    have hmain : ∀ b' : Bool,
        evCount (setEvNode s.cacheL fid b') + evCount (setEvNode s.histL fid b') +
          (if nd.evictable then 1 else 0) =
        evCount s.cacheL + evCount s.histL + (if b' then 1 else 0) := by
      intro b'
      rcases findNode_cases hf with ⟨h1, _⟩ | ⟨h1, h2, _⟩
      · have hfidh : fid ∉ s.histL.map RNode.frame_id := by
          have := findNode_fid hf
          exact this ▸ hd (this ▸ List.mem_map_of_mem RNode.frame_id
            (List.mem_of_find?_eq_some h1))
        rw [setEvNode_of_not_mem hfidh]
        have := evCount_setEvNode (l := s.cacheL) hc h1 (b := b')
        omega
      · have hfidc : fid ∉ s.cacheL.map RNode.frame_id := by
          have hfe := findNode_fid hf
          exact fun hx => hd hx (hfe ▸ List.mem_map_of_mem RNode.frame_id
            (List.mem_of_find?_eq_some h2))
        rw [setEvNode_of_not_mem hfidc]
        have := evCount_setEvNode (l := s.histL) hh h2 (b := b')
        omega
    have hcore : ∀ b' : Bool, WFr { s with
        cacheL := setEvNode s.cacheL fid b',
        histL := setEvNode s.histL fid b',
        size := evCount (setEvNode s.cacheL fid b') + evCount (setEvNode s.histL fid b') } := by
      intro b'
      refine ⟨?_, ?_, ?_, ?_⟩
      · intro x hx
        simp only [setEvNode] at hx
        rcases List.mem_map.1 hx with ⟨y, hy, hxy⟩
        have : x.count = y.count := by
          by_cases hyf : y.frame_id = fid <;> simp [hyf] at hxy <;> rw [← hxy]
        rw [this]
        exact hwf.histLt y hy
      · intro x hx
        simp only [setEvNode] at hx
        rcases List.mem_map.1 hx with ⟨y, hy, hxy⟩
        have : x.count = y.count := by
          by_cases hyf : y.frame_id = fid <;> simp [hyf] at hxy <;> rw [← hxy]
        rw [this]
        exact hwf.cacheGe y hy
      · simp only [allNodes, List.map_append, setEvNode_map_fid]
        simpa [allNodes] using hwf.nodup
      · simp [allNodes, evCount_append]
    show WFr ((if (!nd.evictable && b) = true then
        (none, { s with cacheL := setEvNode s.cacheL fid true,
                        histL := setEvNode s.histL fid true, size := s.size + 1 })
      else if (nd.evictable && !b) = true then
        (none, { s with cacheL := setEvNode s.cacheL fid false,
                        histL := setEvNode s.histL fid false,
                        size := decrementSize s.size })
      else (none, s)).2)
    by_cases h1 : (!nd.evictable && b) = true
    · rw [if_pos h1]
      have hb : b = true := by
        cases b <;> simp_all
      have hev : nd.evictable = false := by
        cases he : nd.evictable
        · rfl
        · simp [he] at h1
      have hsize : s.size + 1 =
          evCount (setEvNode s.cacheL fid true) + evCount (setEvNode s.histL fid true) := by
        have hq := hmain true
        rw [hev] at hq
        simp at hq
        omega
      rw [hsize]
      exact hcore true
    · rw [if_neg h1]
      by_cases h2 : (nd.evictable && !b) = true
      · rw [if_pos h2]
        have hb : b = false := by cases b <;> simp_all
        have hev : nd.evictable = true := by
          cases he : nd.evictable
          · simp [he] at h2
          · rfl
        have hq := hmain false
        rw [hev] at hq
        simp at hq
        have hpos : 1 ≤ evCount s.cacheL + evCount s.histL := by
          rcases findNode_cases hf with ⟨h1', _⟩ | ⟨_, h2', _⟩
          · have := evCount_pos_of_mem (List.mem_of_find?_eq_some h1') hev
            omega
          · have := evCount_pos_of_mem (List.mem_of_find?_eq_some h2') hev
            omega
        have hsize : decrementSize s.size =
            evCount (setEvNode s.cacheL fid false) + evCount (setEvNode s.histL fid false) := by
          simp only [decrementSize]
          split <;> omega
        rw [hsize]
        exact hcore false
      · rw [if_neg h2]
        exact hwf

/-- Every reachable replacer state is well-formed. -/
theorem reach_WF {s : Replacer} (h : Reach s) : WFr s := by
  induction h with
  | init n k =>
    refine ⟨?_, ?_, ?_, rfl⟩
    · intro nd h; cases h
    · intro nd h; cases h
    · simp [allNodes, lruInit]
  | record fid _ ih => exact WF_recordAccess fid ih
  | setEv fid b _ ih => exact WF_setEvictable fid b ih
  | evictStep _ ih => exact WF_evict ih
  | removeStep fid _ ih => exact WF_removeFrame fid ih

/-! ## Replacer claims -/

/-- C2: the spec and the header comment of `RecordAccess`
(lru_k_replacer.h lines 82-83) require an access to a frame id outside the
configured addressable range to fail with `InvalidFrameId` and leave the
state unchanged.  The source contains no range check at all: its embedding
is a total function with no error outcome, and on a replacer constructed
with capacity 1 it happily creates and stores a record for frame id 5,
mutating the state.  This theorem evaluates the code at that failing
input. -/
theorem C2_record_access_missing_range_check :
    recordAccess (lruInit 1 2) 5 =
      { k := 2, replacer_size := 1, cacheL := [],
        histL := [{ frame_id := 5, count := 1, evictable := false }], size := 0 } ∧
    findNode (recordAccess (lruInit 1 2) 5) 5 =
      some { frame_id := 5, count := 1, evictable := false } := by
  decide

/-- C3: in every reachable tracker state holding at least one evictable
frame with reference count below `k`, `Evict` returns a frame id, that id
belongs to a tracked node with count below `k`, and every tracked node
carrying the returned id has count below `k` — so `Evict` never returns a
frame with `referenceCount ≥ k` in such a state. -/
theorem C3_eviction_priority (s : Replacer) (h : Reach s)
    (hex : ∃ nd ∈ allNodes s, nd.evictable = true ∧ nd.count < s.k) :
    ∃ fid, (evict s).1 = some fid ∧
      (∃ nd ∈ allNodes s, nd.frame_id = fid ∧ nd.count < s.k) ∧
      ∀ nd ∈ allNodes s, nd.frame_id = fid → nd.count < s.k := by
  obtain ⟨nd, hmem, hev, hcnt⟩ := hex
  have hwf := reach_WF h
  have hhist : nd ∈ s.histL := by
    rcases List.mem_append.1 hmem with hmc | hmh
    · exact absurd (hwf.cacheGe nd hmc) (by omega)
    · exact hmh
  have hfind : ∃ m, s.histL.find? (fun n => n.evictable) = some m := by
    cases hf : s.histL.find? (fun n => n.evictable) with
    | some m => exact ⟨m, rfl⟩
    | none =>
      rw [List.find?_eq_none] at hf
      exact absurd hev (by simpa using hf nd hhist)
  obtain ⟨m, hm⟩ := hfind
  have hmmem : m ∈ s.histL := List.mem_of_find?_eq_some hm
  have hmcnt : m.count < s.k := hwf.histLt m hmmem
  obtain ⟨hcn, hhn, hdisj⟩ := nodup_parts hwf
  refine ⟨m.frame_id, ?_, ⟨m, List.mem_append.2 (Or.inr hmmem), rfl, hmcnt⟩, ?_⟩
  · unfold evict
    rw [hm]
  · intro nd' hmem' hfid'
    rcases List.mem_append.1 hmem' with hmc' | hmh'
    · have h1 : m.frame_id ∈ s.cacheL.map RNode.frame_id :=
        hfid' ▸ List.mem_map_of_mem RNode.frame_id hmc'
      have h2 : m.frame_id ∈ s.histL.map RNode.frame_id :=
        List.mem_map_of_mem RNode.frame_id hmmem
      exact absurd h2 (hdisj h1)
    · exact hwf.histLt nd' hmh'

theorem C3_eviction_priority_witness :
    ∃ fid, (evict c3wit).1 = some fid ∧
      (∃ nd ∈ allNodes c3wit, nd.frame_id = fid ∧ nd.count < c3wit.k) ∧
      ∀ nd ∈ allNodes c3wit, nd.frame_id = fid → nd.count < c3wit.k :=
  C3_eviction_priority c3wit
    (Reach.setEv 1 true (Reach.record 1 (Reach.init 3 2))) (by decide)

/-- C4: in every reachable tracker state, `Size()` equals the number of
currently tracked frames whose evictable flag is true; reachability is
closed under `RecordAccess`, `SetEvictable`, `Evict` and `Remove`, so the
invariant is preserved by every public operation. -/
theorem C4_size_consistency (s : Replacer) (h : Reach s) :
    replacerSize s = evCount (allNodes s) :=
  (reach_WF h).sizeEq

theorem C4_size_consistency_witness :
    replacerSize c4wit = evCount (allNodes c4wit) :=
  C4_size_consistency c4wit
    (Reach.setEv 1 true (Reach.record 1 (Reach.init 3 2)))

/-- C6: the spec's worked scenario for the tracker with `k = 2`: after
`RecordAccess(1), (2), (3), (1)` and marking frames 1, 2, 3 evictable,
`Size()` is 3, and four successive `Evict` calls return frame 2 (size 2),
frame 3 (size 1), frame 1 (size 0) and finally no candidate. -/
theorem C6_scenario :
    replacerSize c6ready = 3 ∧
    (evict c6ready).1 = some 2 ∧ replacerSize (evict c6ready).2 = 2 ∧
    (evict (evict c6ready).2).1 = some 3 ∧
    replacerSize (evict (evict c6ready).2).2 = 1 ∧
    (evict (evict (evict c6ready).2).2).1 = some 1 ∧
    replacerSize (evict (evict (evict c6ready).2).2).2 = 0 ∧
    (evict (evict (evict (evict c6ready).2).2).2).1 = none := by
  decide

/-- C8: `Remove(frameId)` on an unknown frame returns normally and changes
nothing; on a tracked non-evictable frame it fails with `NotEvictable`,
leaving the state unchanged; on a tracked evictable frame it succeeds,
after which the frame (and hence its access history) is no longer tracked,
all other frames are untouched, and the size drops by one. -/
theorem C8_remove_semantics (s : Replacer) (fid : Int) (h : Reach s) :
    (findNode s fid = none → removeFrame s fid = (none, s)) ∧
    (∀ nd, findNode s fid = some nd → nd.evictable = false →
      removeFrame s fid = (some RepErr.NotEvictable, s)) ∧
    (∀ nd, findNode s fid = some nd → nd.evictable = true →
      (removeFrame s fid).1 = none ∧
      findNode (removeFrame s fid).2 fid = none ∧
      (∀ fid', fid' ≠ fid → findNode (removeFrame s fid).2 fid' = findNode s fid') ∧
      replacerSize (removeFrame s fid).2 = replacerSize s - 1) := by
  refine ⟨?_, ?_, ?_⟩
  · intro h0
    unfold removeFrame
    rw [h0]
  · intro nd h0 hev
    unfold removeFrame
    rw [h0]
    show (if (!nd.evictable) = true then (some RepErr.NotEvictable, s)
      else (none, listRemove s nd)) = (some RepErr.NotEvictable, s)
    rw [if_pos (by simp [hev])]
  · intro nd h0 hev
    have hwf := reach_WF h
    obtain ⟨hcn, hhn, hdisj⟩ := nodup_parts hwf
    have hfid := findNode_fid h0
    have hrem : removeFrame s fid = (none, listRemove s nd) := by
      unfold removeFrame
      rw [h0]
      show (if (!nd.evictable) = true then (some RepErr.NotEvictable, s)
        else (none, listRemove s nd)) = (none, listRemove s nd)
      rw [if_neg (by simp [hev])]
    rw [hrem]
    have hne' : ∀ fid', fid' ≠ fid → fid' ≠ nd.frame_id :=
      fun fid' hne he => hne (he.trans hfid)
    refine ⟨rfl, ?_, ?_, ?_⟩
    · rw [findNode_none_iff, ← hfid]
      simp only [allNodes, listRemove, List.map_append, List.mem_append, not_or]
      exact ⟨not_mem_map_eraseFid hcn, not_mem_map_eraseFid hhn⟩
    · intro fid' hne
      unfold findNode
      simp only [listRemove]
      rw [find?_eraseFid_ne (hne' fid' hne), find?_eraseFid_ne (hne' fid' hne)]
    · show (if nd.evictable = true then s.size - 1 else s.size) = s.size - 1
      rw [if_pos hev]

theorem C8_remove_semantics_witness :
    (removeFrame c8wit 1).1 = none ∧ findNode (removeFrame c8wit 1).2 1 = none := by
  have h := (C8_remove_semantics c8wit 1
    (Reach.setEv 1 true (Reach.record 1 (Reach.init 3 2)))).2.2
    { frame_id := 1, count := 1, evictable := true } (by decide) rfl
  exact ⟨h.1, h.2.1⟩

/-! ## Hash table claims: concrete computations -/

/-- C7: the spec's directory scenario with `bucketCapacity = 2`, integer
keys and the identity hash: after `Insert(0,"a")`, `Insert(1,"b")`,
`Insert(2,"c")` the table has `GlobalDepth() = 1`, `BucketCount() = 2`,
both slots at local depth 1, keys 0 and 2 sharing the bucket at slot 0,
key 1 alone in the bucket at slot 1, and `Find` returning "a", "b", "c"
for keys 0, 1, 2. -/
theorem C7_scenario :
    c7run = some c7final ∧
    getGlobalDepthT c7final = 1 ∧ getNumBucketsT c7final = 2 ∧
    getLocalDepthT c7final 0 = 1 ∧ getLocalDepthT c7final 1 = 1 ∧
    slotPtr c7final 0 = some 0 ∧ slotPtr c7final 1 = some 1 ∧
    (dirBucket c7final 0).list = [(0, "a"), (2, "c")] ∧
    (dirBucket c7final 1).list = [(1, "b")] ∧
    findT idHash c7final 0 = some "a" ∧
    findT idHash c7final 1 = some "b" ∧
    findT idHash c7final 2 = some "c" := by
  decide

set_option maxRecDepth 10000 in
/-- C5 counterexample: the claim bounds the split-and-retry loop of
`Insert` by "on the order of `log2` of the number of distinct colliding
keys".  With capacity 2 and identity hash, the table `c5start` (reached by
two ordinary inserts) holds the 2 keys `0` and `1024`, and `Insert(512)`
collides with both, so 3 distinct keys collide and the claimed bound is
about `log2 3 < 2` iterations.  But their hashes agree on all low bits up
to bit 9, so the loop must split ten times — with fuel for 10 loop
iterations the insertion has not completed, and it completes exactly at
the 11th — refuting the claimed bound. -/
theorem C5_log2_bound_counterexample :
    runOps idHash 5 2 [EOp.ins 0 10, EOp.ins 1024 11] = some c5start ∧
    insertT idHash 10 c5start 512 12 = none ∧
    (insertT idHash 11 c5start 512 12).isSome = true := by
  decide

/-! ## Index and bit helpers for the hash table proofs -/

theorem length_setNth {α : Type} (l : List α) (i : Nat) (a : α) :
    (setNth l i a).length = l.length := by
  induction l generalizing i with
  | nil => rfl
  | cons x t ih =>
    cases i with
    | zero => rfl
    | succ i => simp [setNth, ih]

theorem getDef_setNth_eq {α : Type} {l : List α} {i : Nat} (a d : α)
    (h : i < l.length) : getDef (setNth l i a) i d = a := by
  induction l generalizing i with
  | nil => cases h
  | cons x t ih =>
    cases i with
    | zero => rfl
    | succ i => exact ih (by simpa using h)

theorem getDef_setNth_ne {α : Type} {l : List α} {i j : Nat} (a d : α)
    (h : i ≠ j) : getDef (setNth l i a) j d = getDef l j d := by
  induction l generalizing i j with
  | nil => rfl
  | cons x t ih =>
    cases i with
    | zero =>
      cases j with
      | zero => exact absurd rfl h
      | succ j => rfl
    | succ i =>
      cases j with
      | zero => rfl
      | succ j => exact ih (by omega)

theorem getDef_append_lt {α : Type} {l1 l2 : List α} {i : Nat} (d : α)
    (h : i < l1.length) : getDef (l1 ++ l2) i d = getDef l1 i d := by
  induction l1 generalizing i with
  | nil => cases h
  | cons x t ih =>
    cases i with
    | zero => rfl
    | succ i => exact ih (by simpa using h)

theorem getDef_append_ge {α : Type} {l1 l2 : List α} {i : Nat} (d : α)
    (h : l1.length ≤ i) : getDef (l1 ++ l2) i d = getDef l2 (i - l1.length) d := by
  induction l1 generalizing i with
  | nil => simp [getDef]
  | cons x t ih =>
    cases i with
    | zero => cases h
    | succ i =>
      have hidx : i + 1 - (x :: t).length = i - t.length := by
        simp only [List.length_cons]
        omega
      rw [hidx]
      show getDef (t ++ l2) i d = getDef l2 (i - t.length) d
      exact ih (by simpa using h)

theorem length_repoint (bj n p : Nat) (i : Nat) (l : List (Option Nat)) :
    (repoint bj n p i l).length = l.length := by
  induction l generalizing i with
  | nil => rfl
  | cons o t ih => simp [repoint, ih]

theorem getDef_repoint {l : List (Option Nat)} (bj n p : Nat) (i j : Nat)
    (h : j < l.length) :
    getDef (repoint bj n p i l) j none =
      if getDef l j none = some bj ∧ ((i + j) >>> p) &&& 1 = 1 then some n
      else getDef l j none := by
  induction l generalizing i j with
  | nil => cases h
  | cons o t ih =>
    cases j with
    | zero => simp [repoint, getDef]
    | succ j =>
      show getDef (repoint bj n p (i + 1) t) j none = _
      rw [ih (i + 1) j (by simpa using h)]
      have : i + 1 + j = i + (j + 1) := by omega
      rw [this]
      rfl

theorem shr_and_one (x p : Nat) : (x >>> p) &&& 1 = x / 2 ^ p % 2 := by
  rw [Nat.shiftRight_eq_div_pow, Nat.and_one_is_mod]

theorem and_shl_ne_zero_iff (x p : Nat) :
    ((x &&& (1 <<< p)) != 0) = true ↔ x / 2 ^ p % 2 = 1 := by
  rw [Nat.one_shiftLeft, Nat.and_two_pow, Nat.testBit_to_div_mod]
  have hp2 : (2 : Nat) ^ p ≠ 0 := Nat.pos_iff_ne_zero.mp (Nat.two_pow_pos p)
  by_cases h : x / 2 ^ p % 2 = 1
  · simp [h, hp2]
  · simp [h]

theorem and_shl_eq_zero_iff (x p : Nat) :
    ((x &&& (1 <<< p)) == 0) = true ↔ x / 2 ^ p % 2 = 0 := by
  have h1 := and_shl_ne_zero_iff x p
  simp only [beq_iff_eq]
  simp only [bne_iff_ne, ne_eq] at h1
  constructor
  · intro h0
    by_contra hne
    have h2 : x / 2 ^ p % 2 = 1 := by omega
    exact absurd h0 (h1.mpr h2)
  · intro h0
    by_contra hne
    have := h1.mp hne
    omega

theorem mod_two_pow_succ (x p : Nat) :
    x % 2 ^ (p + 1) = x % 2 ^ p + 2 ^ p * (x / 2 ^ p % 2) := by
  rw [Nat.pow_succ]
  exact Nat.mod_mul

theorem mod_two_pow_succ_eq_iff {x y : Nat} (p : Nat) :
    x % 2 ^ (p + 1) = y % 2 ^ (p + 1) ↔
      x % 2 ^ p = y % 2 ^ p ∧ x / 2 ^ p % 2 = y / 2 ^ p % 2 := by
  rw [mod_two_pow_succ, mod_two_pow_succ]
  have hx : x % 2 ^ p < 2 ^ p := Nat.mod_lt _ (Nat.two_pow_pos p)
  have hy : y % 2 ^ p < 2 ^ p := Nat.mod_lt _ (Nat.two_pow_pos p)
  have hd1 : x / 2 ^ p % 2 = 0 ∨ x / 2 ^ p % 2 = 1 := by omega
  have hd2 : y / 2 ^ p % 2 = 0 ∨ y / 2 ^ p % 2 = 1 := by omega
  rcases hd1 with h1 | h1 <;> rcases hd2 with h2 | h2 <;> rw [h1, h2] <;> omega

theorem mod_mod_two_pow_le {gd p : Nat} (hle : p ≤ gd) (x : Nat) :
    x % 2 ^ gd % 2 ^ p = x % 2 ^ p :=
  Nat.mod_mod_of_dvd x (Nat.pow_dvd_pow 2 hle)

theorem div_mod_two_of_mod_two_pow {p gd : Nat} (h : p < gd) (x : Nat) :
    x % 2 ^ gd / 2 ^ p % 2 = x / 2 ^ p % 2 := by
  have hsplit : (2 : Nat) ^ gd = 2 ^ p * 2 ^ (gd - p) := by
    rw [← Nat.pow_add]
    congr 1
    omega
  rw [hsplit, Nat.mod_mul_right_div_self]
  exact Nat.mod_mod_of_dvd _ (dvd_pow_self 2 (by omega))

theorem indexOf_eq_mod (hash : K → Nat) (s : EHT K V) (k : K) :
    indexOf hash s k = hash k % 2 ^ s.global_depth := by
  unfold indexOf
  rw [Nat.one_shiftLeft, Nat.and_pow_two_sub_one_eq_mod]

/-! ## Key-value list lemmas -/

theorem containsKey_iff [DecidableEq K] {l : List (K × V)} {k : K} :
    containsKey l k = true ↔ k ∈ l.map Prod.fst := by
  induction l with
  | nil => simp [containsKey]
  | cons p t ih =>
    by_cases hp : p.1 = k
    · simp [containsKey, hp]
    · simp [containsKey, hp, ih, Ne.symm hp]

theorem lookupKV_eq_none_of_not_mem [DecidableEq K] {l : List (K × V)} {k : K}
    (h : k ∉ l.map Prod.fst) : lookupKV l k = none := by
  induction l with
  | nil => rfl
  | cons p t ih =>
    simp only [List.map_cons, List.mem_cons, not_or] at h
    show (if p.1 = k then some p.2 else lookupKV t k) = none
    rw [if_neg (Ne.symm h.1), ih h.2]

theorem lookupKV_setVal_self [DecidableEq K] {l : List (K × V)} {k : K} (v : V)
    (h : containsKey l k = true) : lookupKV (setVal l k v) k = some v := by
  induction l with
  | nil => simp [containsKey] at h
  | cons p t ih =>
    by_cases hp : p.1 = k
    · simp only [setVal, if_pos hp, lookupKV]
    · have h' : containsKey t k = true := by
        simpa [containsKey, if_neg hp] using h
      simp only [setVal, if_neg hp, lookupKV]
      exact ih h'

theorem lookupKV_setVal_ne [DecidableEq K] {l : List (K × V)} {k k' : K} (v : V)
    (h : k' ≠ k) : lookupKV (setVal l k v) k' = lookupKV l k' := by
  induction l with
  | nil => rfl
  | cons p t ih =>
    have hk' : ¬ p.1 = k' ∨ p.1 = k' := by tauto
    by_cases hp : p.1 = k
    · have hne : ¬ p.1 = k' := by rw [hp]; exact Ne.symm h
      simp only [setVal, if_pos hp, lookupKV]
      rw [if_neg hne, if_neg hne]
    · simp only [setVal, if_neg hp, lookupKV]
      rw [ih]

theorem map_fst_setVal [DecidableEq K] (l : List (K × V)) (k : K) (v : V) :
    (setVal l k v).map Prod.fst = l.map Prod.fst := by
  induction l with
  | nil => rfl
  | cons p t ih =>
    by_cases hp : p.1 = k
    · simp [setVal, hp]
    · simp [setVal, hp, ih]

theorem lookupKV_append_self [DecidableEq K] {l : List (K × V)} {k : K} (v : V)
    (h : containsKey l k = false) : lookupKV (l ++ [(k, v)]) k = some v := by
  induction l with
  | nil => simp [lookupKV]
  | cons p t ih =>
    have hp : ¬ p.1 = k := by
      intro hpk
      simp [containsKey, hpk] at h
    have h' : containsKey t k = false := by
      simpa [containsKey, hp] using h
    show (if p.1 = k then some p.2 else lookupKV (t ++ [(k, v)]) k) = some v
    rw [if_neg hp, ih h']

theorem lookupKV_append_ne [DecidableEq K] {l : List (K × V)} {k k' : K} (v : V)
    (h : k' ≠ k) : lookupKV (l ++ [(k, v)]) k' = lookupKV l k' := by
  induction l with
  | nil => simp [lookupKV, Ne.symm h]
  | cons p t ih =>
    show (if p.1 = k' then some p.2 else lookupKV (t ++ [(k, v)]) k') = _
    by_cases hp : p.1 = k'
    · simp [lookupKV, hp]
    · simp only [lookupKV, if_neg hp]
      exact ih

theorem eraseKV_sublist [DecidableEq K] (l : List (K × V)) (k : K) :
    (eraseKV l k).Sublist l := by
  induction l with
  | nil => simp [eraseKV]
  | cons p t ih =>
    by_cases hp : p.1 = k
    · simp only [eraseKV, if_pos hp]
      exact List.sublist_cons_of_sublist _ (List.Sublist.refl t)
    · simp only [eraseKV, if_neg hp]
      exact List.Sublist.cons₂ _ ih

theorem lookupKV_eraseKV_self [DecidableEq K] {l : List (K × V)} {k : K}
    (h : (l.map Prod.fst).Nodup) : lookupKV (eraseKV l k) k = none := by
  induction l with
  | nil => rfl
  | cons p t ih =>
    simp only [List.map_cons, List.nodup_cons] at h
    by_cases hp : p.1 = k
    · simp only [eraseKV, if_pos hp]
      exact lookupKV_eq_none_of_not_mem (hp ▸ h.1)
    · simp only [eraseKV, if_neg hp]
      show (if p.1 = k then some p.2 else lookupKV (eraseKV t k) k) = none
      rw [if_neg hp, ih h.2]

theorem lookupKV_eraseKV_ne [DecidableEq K] {l : List (K × V)} {k k' : K}
    (h : k' ≠ k) : lookupKV (eraseKV l k) k' = lookupKV l k' := by
  induction l with
  | nil => rfl
  | cons p t ih =>
    by_cases hp : p.1 = k
    · simp only [eraseKV, if_pos hp]
      show _ = (if p.1 = k' then some p.2 else lookupKV t k')
      rw [if_neg (by rw [hp]; exact Ne.symm h : ¬ p.1 = k')]
    · simp only [eraseKV, if_neg hp]
      show (if p.1 = k' then some p.2 else lookupKV (eraseKV t k) k') = _
      by_cases hp' : p.1 = k'
      · simp [lookupKV, hp']
      · simp only [lookupKV, if_neg hp']
        exact ih

theorem lookupKV_filter [DecidableEq K] {l : List (K × V)} {k : K}
    {f : K × V → Bool} (h : ∀ p ∈ l, p.1 = k → f p = true) :
    lookupKV (l.filter f) k = lookupKV l k := by
  induction l with
  | nil => rfl
  | cons p t ih =>
    by_cases hp : p.1 = k
    · rw [List.filter_cons, if_pos (h p (List.mem_cons_self _ _) hp)]
      show (if p.1 = k then some p.2 else lookupKV (t.filter f) k) = _
      simp only [lookupKV, if_pos hp]
    · rw [List.filter_cons]
      by_cases hf : f p = true
      · rw [if_pos hf]
        show (if p.1 = k then some p.2 else lookupKV (t.filter f) k) = _
        simp only [lookupKV, if_neg hp]
        exact ih (fun q hq => h q (List.mem_cons_of_mem _ hq))
      · rw [if_neg hf]
        show lookupKV (t.filter f) k = (if p.1 = k then some p.2 else lookupKV t k)
        rw [if_neg hp]
        exact ih (fun q hq => h q (List.mem_cons_of_mem _ hq))

/-! ## Basic well-formedness facts and directory doubling -/

theorem dirBucket_of_slotPtr {s : EHT K V} {i j : Nat}
    (h : slotPtr s i = some j) : dirBucket s i = bucketAt s j := by
  unfold dirBucket
  rw [h]

theorem indexOf_lt_dirLen [DecidableEq K] {hash : K → Nat} {s : EHT K V}
    (hwf : WFt hash s) (k : K) : indexOf hash s k < s.dir.length := by
  rw [indexOf_eq_mod, hwf.dlen]
  exact Nat.mod_lt _ (Nat.two_pow_pos _)

theorem expand_global (s : EHT K V) :
    (expandTable s).global_depth = s.global_depth + 1 := rfl

theorem expand_dirLen (s : EHT K V) :
    (expandTable s).dir.length = 2 * s.dir.length := by
  show (s.dir ++ s.dir).length = 2 * s.dir.length
  rw [List.length_append]
  omega

theorem expand_slotPtr {s : EHT K V} {i : Nat} (hlen : 0 < s.dir.length)
    (h : i < 2 * s.dir.length) :
    slotPtr (expandTable s) i = slotPtr s (i % s.dir.length) := by
  show getDef (s.dir ++ s.dir) i none = getDef s.dir (i % s.dir.length) none
  by_cases hi : i < s.dir.length
  · rw [getDef_append_lt _ hi, Nat.mod_eq_of_lt hi]
  · rw [getDef_append_ge _ (by omega)]
    have h2 : i % s.dir.length = i - s.dir.length := by
      rw [Nat.mod_eq_sub_mod (by omega)]
      exact Nat.mod_eq_of_lt (by omega)
    rw [h2]

theorem expand_dirBucket {s : EHT K V} {i : Nat} (hlen : 0 < s.dir.length)
    (h : i < 2 * s.dir.length) :
    dirBucket (expandTable s) i = dirBucket s (i % s.dir.length) := by
  unfold dirBucket
  rw [expand_slotPtr hlen h]
  cases slotPtr s (i % s.dir.length) with
  | none => rfl
  | some j => rfl

theorem expand_WF [DecidableEq K] {hash : K → Nat} {s : EHT K V}
    (hwf : WFt hash s) : WFt hash (expandTable s) := by
  have hlen : 0 < s.dir.length := by
    rw [hwf.dlen]
    exact Nat.two_pow_pos _
  have hdl := expand_dirLen s
  refine ⟨?_, ?_, ?_, ?_, ?_, ?_, ?_⟩
  · rw [hdl, hwf.dlen, expand_global, Nat.pow_succ]
    omega
  · intro i hi
    rw [hdl] at hi
    rw [expand_slotPtr hlen hi]
    exact hwf.slots _ (Nat.mod_lt _ hlen)
  · intro i hi
    rw [hdl] at hi
    rw [expand_dirBucket hlen hi, expand_global]
    exact Nat.le_succ_of_le (hwf.depthLe _ (Nat.mod_lt _ hlen))
  · intro i hi x hx
    rw [hdl] at hi
    rw [expand_dirBucket hlen hi] at hx ⊢
    have hi' : i % s.dir.length < s.dir.length := Nat.mod_lt _ hlen
    have hdep := hwf.depthLe _ hi'
    have hmod : ∀ a dep : Nat, dep ≤ s.global_depth →
        a % s.dir.length % 2 ^ dep = a % 2 ^ dep := by
      intro a dep hd
      rw [hwf.dlen]
      exact mod_mod_two_pow_le hd a
    rw [hwf.pat _ hi' x hx, hmod i _ hdep]
  · intro i i' hi hi'
    rw [hdl] at hi hi'
    rw [expand_slotPtr hlen hi, expand_slotPtr hlen hi', expand_dirBucket hlen hi]
    have h1 : i % s.dir.length < s.dir.length := Nat.mod_lt _ hlen
    have h2 : i' % s.dir.length < s.dir.length := Nat.mod_lt _ hlen
    rw [hwf.share _ _ h1 h2]
    have hdep := hwf.depthLe _ h1
    have hmod : ∀ a dep : Nat, dep ≤ s.global_depth →
        a % s.dir.length % 2 ^ dep = a % 2 ^ dep := by
      intro a dep hd
      rw [hwf.dlen]
      exact mod_mod_two_pow_le hd a
    rw [hmod i _ hdep, hmod i' _ hdep]
  · intro i hi
    rw [hdl] at hi
    rw [expand_dirBucket hlen hi]
    exact hwf.keysN _ (Nat.mod_lt _ hlen)
  · intro i hi
    rw [hdl] at hi
    rw [expand_dirBucket hlen hi]
    exact hwf.capEq _ (Nat.mod_lt _ hlen)

theorem expand_index_mod [DecidableEq K] {hash : K → Nat} {s : EHT K V}
    (hwf : WFt hash s) (k : K) :
    indexOf hash (expandTable s) k % s.dir.length = indexOf hash s k := by
  rw [indexOf_eq_mod, indexOf_eq_mod, expand_global, hwf.dlen]
  exact mod_mod_two_pow_le (Nat.le_succ _) _

theorem expand_index_lt [DecidableEq K] {hash : K → Nat} {s : EHT K V}
    (hwf : WFt hash s) (k : K) :
    indexOf hash (expandTable s) k < 2 * s.dir.length := by
  have := indexOf_lt_dirLen (expand_WF hwf) k
  rwa [expand_dirLen] at this

theorem expand_routed [DecidableEq K] {hash : K → Nat} {s : EHT K V}
    (hwf : WFt hash s) (k : K) :
    slotPtr (expandTable s) (indexOf hash (expandTable s) k) =
      slotPtr s (indexOf hash s k) := by
  have hlen : 0 < s.dir.length := by
    rw [hwf.dlen]
    exact Nat.two_pow_pos _
  rw [expand_slotPtr hlen (expand_index_lt hwf k), expand_index_mod hwf k]

theorem expand_routedBucket [DecidableEq K] {hash : K → Nat} {s : EHT K V}
    (hwf : WFt hash s) (k : K) :
    dirBucket (expandTable s) (indexOf hash (expandTable s) k) =
      dirBucket s (indexOf hash s k) := by
  have hlen : 0 < s.dir.length := by
    rw [hwf.dlen]
    exact Nat.two_pow_pos _
  rw [expand_dirBucket hlen (expand_index_lt hwf k), expand_index_mod hwf k]

theorem expand_absMap [DecidableEq K] {hash : K → Nat} {s : EHT K V}
    (hwf : WFt hash s) (k : K) :
    absMap hash (expandTable s) k = absMap hash s k := by
  unfold absMap
  rw [expand_routedBucket hwf k]

/-! ## Bucket split: structural description -/

section SplitFacts

variable [DecidableEq K] (hash : K → Nat) (s : EHT K V) (bj : Nat)

theorem split_global : (splitBucket hash s bj).global_depth = s.global_depth := rfl

theorem split_bsize : (splitBucket hash s bj).bucket_size = s.bucket_size := rfl

theorem split_num : (splitBucket hash s bj).num_buckets = s.num_buckets + 1 := rfl

theorem split_dirLen : (splitBucket hash s bj).dir.length = s.dir.length := by
  show (repoint _ _ _ 0 s.dir).length = s.dir.length
  exact length_repoint _ _ _ 0 s.dir

theorem split_bucketsLen :
    (splitBucket hash s bj).buckets.length = s.buckets.length + 1 := by
  show (setNth s.buckets bj _ ++ [_]).length = s.buckets.length + 1
  rw [List.length_append, length_setNth]
  rfl

theorem split_indexOf (k : K) :
    indexOf hash (splitBucket hash s bj) k = indexOf hash s k := rfl

theorem split_slotPtr {i : Nat} (hi : i < s.dir.length) :
    slotPtr (splitBucket hash s bj) i =
      if slotPtr s i = some bj ∧ i / 2 ^ (bucketAt s bj).depth % 2 = 1
      then some s.buckets.length else slotPtr s i := by
  show getDef (repoint bj s.buckets.length ((bucketAt s bj).depth + 1 - 1) 0 s.dir)
      i none = _
  rw [getDef_repoint _ _ _ 0 i hi]
  have hb : ((0 + i) >>> ((bucketAt s bj).depth + 1 - 1)) &&& 1 =
      i / 2 ^ (bucketAt s bj).depth % 2 := by
    rw [Nat.zero_add, shr_and_one, Nat.add_sub_cancel]
  rw [hb]
  rfl

theorem split_bucketAt_old (hbjlt : bj < s.buckets.length) :
    bucketAt (splitBucket hash s bj) bj =
      { size := (bucketAt s bj).size, depth := (bucketAt s bj).depth + 1,
        list := stayedList hash s (bucketAt s bj) } := by
  show getDef (setNth s.buckets bj _ ++ [_]) bj _ = _
  rw [getDef_append_lt _ (by rw [length_setNth]; exact hbjlt),
    getDef_setNth_eq _ _ hbjlt]

theorem split_bucketAt_new :
    bucketAt (splitBucket hash s bj) s.buckets.length =
      { size := s.bucket_size, depth := (bucketAt s bj).depth + 1,
        list := movedList hash s (bucketAt s bj) } := by
  show getDef (setNth s.buckets bj _ ++ [_]) s.buckets.length _ = _
  rw [getDef_append_ge _ (by rw [length_setNth])]
  rw [length_setNth]
  simp [getDef]

theorem split_bucketAt_other {j : Nat} (hne : j ≠ bj) (hj : j < s.buckets.length) :
    bucketAt (splitBucket hash s bj) j = bucketAt s j := by
  show getDef (setNth s.buckets bj _ ++ [_]) j _ = _
  rw [getDef_append_lt _ (by rw [length_setNth]; exact hj),
    getDef_setNth_ne _ _ (fun h => hne h.symm)]
  rfl

end SplitFacts

/-! ## Bucket split: slot routing under well-formedness -/

section SplitWF

variable [DecidableEq K] {hash : K → Nat} {s : EHT K V} {bj i₀ : Nat}

/-- Directory slots pointing at the split bucket are exactly those that
agree with `i₀` (a slot known to point at it) on the low `depth` bits. -/
theorem old_bj_char (hwf : WFt hash s) (hi₀ : i₀ < s.dir.length)
    (hbj : slotPtr s i₀ = some bj) {i : Nat} (hi : i < s.dir.length) :
    slotPtr s i = some bj ↔
      i % 2 ^ (bucketAt s bj).depth = i₀ % 2 ^ (bucketAt s bj).depth := by
  have hd : (dirBucket s i₀).depth = (bucketAt s bj).depth := by
    rw [dirBucket_of_slotPtr hbj]
  have := hwf.share i₀ i hi₀ hi
  rw [hd] at this
  constructor
  · intro h
    exact ((this.mp (by rw [hbj, h])).symm)
  · intro h
    rw [← hbj]
    exact (this.mpr h.symm).symm

theorem bit_of_indexOf (hwf : WFt hash s)
    (hdlt : (bucketAt s bj).depth < s.global_depth) (x : K) :
    indexOf hash s x / 2 ^ (bucketAt s bj).depth % 2 =
      hash x / 2 ^ (bucketAt s bj).depth % 2 := by
  rw [indexOf_eq_mod]
  exact div_mod_two_of_mod_two_pow hdlt _

theorem mem_movedList (hwf : WFt hash s)
    (hdlt : (bucketAt s bj).depth < s.global_depth) {p : K × V} :
    p ∈ movedList hash s (bucketAt s bj) ↔
      p ∈ (bucketAt s bj).list ∧ hash p.1 / 2 ^ (bucketAt s bj).depth % 2 = 1 := by
  unfold movedList
  rw [List.mem_filter]
  have : ((indexOf hash s p.1 &&& (1 <<< (((bucketAt s bj).depth + 1) - 1))) != 0)
      = true ↔ hash p.1 / 2 ^ (bucketAt s bj).depth % 2 = 1 := by
    rw [and_shl_ne_zero_iff]
    show indexOf hash s p.1 / 2 ^ (bucketAt s bj).depth % 2 = 1 ↔ _
    rw [bit_of_indexOf hwf hdlt]
  rw [this]

theorem mem_stayedList (hwf : WFt hash s)
    (hdlt : (bucketAt s bj).depth < s.global_depth) {p : K × V} :
    p ∈ stayedList hash s (bucketAt s bj) ↔
      p ∈ (bucketAt s bj).list ∧ hash p.1 / 2 ^ (bucketAt s bj).depth % 2 = 0 := by
  unfold stayedList
  rw [List.mem_filter]
  have : ((indexOf hash s p.1 &&& (1 <<< (((bucketAt s bj).depth + 1) - 1))) == 0)
      = true ↔ hash p.1 / 2 ^ (bucketAt s bj).depth % 2 = 0 := by
    rw [and_shl_eq_zero_iff]
    show indexOf hash s p.1 / 2 ^ (bucketAt s bj).depth % 2 = 0 ↔ _
    rw [bit_of_indexOf hwf hdlt]
  rw [this]

end SplitWF

section SplitSlots

variable [DecidableEq K] {hash : K → Nat} {s : EHT K V} {bj i₀ : Nat}

theorem bj_lt (hwf : WFt hash s) (hi₀ : i₀ < s.dir.length)
    (hbj : slotPtr s i₀ = some bj) : bj < s.buckets.length := by
  obtain ⟨j, hj, hjlt⟩ := hwf.slots i₀ hi₀
  rw [hbj] at hj
  injection hj with h'
  rwa [h']

theorem split_slot_old_iff (hwf : WFt hash s) (hi₀ : i₀ < s.dir.length)
    (hbj : slotPtr s i₀ = some bj) {i : Nat} (hi : i < s.dir.length) :
    slotPtr (splitBucket hash s bj) i = some bj ↔
      i % 2 ^ ((bucketAt s bj).depth + 1) = i₀ % 2 ^ (bucketAt s bj).depth := by
  have hbjlt : bj < s.buckets.length := bj_lt hwf hi₀ hbj
  set dOld := (bucketAt s bj).depth with hdOld
  have hc0 : i₀ % 2 ^ dOld < 2 ^ dOld := Nat.mod_lt _ (Nat.two_pow_pos _)
  have hpos : 0 < 2 ^ dOld := Nat.two_pow_pos _
  have hdecomp : i % 2 ^ (dOld + 1) = i % 2 ^ dOld + 2 ^ dOld * (i / 2 ^ dOld % 2) :=
    mod_two_pow_succ i dOld
  rw [split_slotPtr hash s bj hi]
  by_cases hsp : slotPtr s i = some bj
  · have hmod : i % 2 ^ dOld = i₀ % 2 ^ dOld := (old_bj_char hwf hi₀ hbj hi).mp hsp
    by_cases hbit : i / 2 ^ dOld % 2 = 1
    · rw [if_pos ⟨hsp, hbit⟩]
      constructor
      · intro h
        injection h with h'
        omega
      · intro h
        rw [hbit] at hdecomp
        omega
    · rw [if_neg (fun hq => hbit hq.2)]
      have hbit0 : i / 2 ^ dOld % 2 = 0 := by omega
      rw [hbit0] at hdecomp
      constructor
      · intro _
        omega
      · intro _
        exact hsp
  · rw [if_neg (fun hq => hsp hq.1)]
    constructor
    · intro h
      exact absurd h hsp
    · intro h
      have hmm : i % 2 ^ (dOld + 1) % 2 ^ dOld = i % 2 ^ dOld :=
        mod_mod_two_pow_le (Nat.le_succ _) i
      have h2 := congrArg (fun t => t % 2 ^ dOld) h
      simp only [hmm, Nat.mod_eq_of_lt hc0] at h2
      exact absurd ((old_bj_char hwf hi₀ hbj hi).mpr h2) hsp

theorem split_slot_new_iff (hwf : WFt hash s) (hi₀ : i₀ < s.dir.length)
    (hbj : slotPtr s i₀ = some bj) {i : Nat} (hi : i < s.dir.length) :
    slotPtr (splitBucket hash s bj) i = some s.buckets.length ↔
      i % 2 ^ ((bucketAt s bj).depth + 1) =
        i₀ % 2 ^ (bucketAt s bj).depth + 2 ^ (bucketAt s bj).depth := by
  have hbjlt : bj < s.buckets.length := bj_lt hwf hi₀ hbj
  set dOld := (bucketAt s bj).depth with hdOld
  have hc0 : i₀ % 2 ^ dOld < 2 ^ dOld := Nat.mod_lt _ (Nat.two_pow_pos _)
  have hpos : 0 < 2 ^ dOld := Nat.two_pow_pos _
  have hdecomp : i % 2 ^ (dOld + 1) = i % 2 ^ dOld + 2 ^ dOld * (i / 2 ^ dOld % 2) :=
    mod_two_pow_succ i dOld
  rw [split_slotPtr hash s bj hi]
  by_cases hsp : slotPtr s i = some bj
  · have hmod : i % 2 ^ dOld = i₀ % 2 ^ dOld := (old_bj_char hwf hi₀ hbj hi).mp hsp
    by_cases hbit : i / 2 ^ dOld % 2 = 1
    · rw [if_pos ⟨hsp, hbit⟩]
      rw [hbit] at hdecomp
      constructor
      · intro _
        omega
      · intro _
        rfl
    · rw [if_neg (fun hq => hbit hq.2)]
      have hbit0 : i / 2 ^ dOld % 2 = 0 := by omega
      rw [hbit0] at hdecomp
      constructor
      · intro h
        rw [hsp] at h
        injection h with h'
        omega
      · intro h
        omega
  · rw [if_neg (fun hq => hsp hq.1)]
    obtain ⟨j, hj, hjlt⟩ := hwf.slots i hi
    constructor
    · intro h
      rw [hj] at h
      injection h with h'
      omega
    · intro h
      have h2 := congrArg (fun t => t % 2 ^ dOld) h
      have hmm : i % 2 ^ (dOld + 1) % 2 ^ dOld = i % 2 ^ dOld :=
        mod_mod_two_pow_le (Nat.le_succ _) i
      simp only [hmm, Nat.add_mod_right, Nat.mod_eq_of_lt hc0] at h2
      exact absurd ((old_bj_char hwf hi₀ hbj hi).mpr h2) hsp

theorem split_slot_other_iff {i j : Nat} (hi : i < s.dir.length)
    (hjne : j ≠ bj) (hjn : j ≠ s.buckets.length) :
    slotPtr (splitBucket hash s bj) i = some j ↔ slotPtr s i = some j := by
  rw [split_slotPtr hash s bj hi]
  by_cases hcond : slotPtr s i = some bj ∧ i / 2 ^ (bucketAt s bj).depth % 2 = 1
  · rw [if_pos hcond]
    constructor
    · intro h
      injection h with h'
      exact absurd h'.symm hjn
    · intro h
      have := hcond.1.symm.trans h
      injection this with h'
      exact absurd h'.symm hjne
  · rw [if_neg hcond]

end SplitSlots

section SplitWFProof

variable [DecidableEq K] {hash : K → Nat} {s : EHT K V} {bj i₀ : Nat}

/-- Which of the three bucket families a directory slot of the split state
points to: the split bucket, the new sibling, or an untouched bucket. -/
theorem split_slot_trichotomy (hwf : WFt hash s) (hi₀ : i₀ < s.dir.length)
    (hbj : slotPtr s i₀ = some bj) {i : Nat} (hi : i < s.dir.length) :
    (slotPtr (splitBucket hash s bj) i = some bj ∧
      i % 2 ^ ((bucketAt s bj).depth + 1) = i₀ % 2 ^ (bucketAt s bj).depth) ∨
    (slotPtr (splitBucket hash s bj) i = some s.buckets.length ∧
      i % 2 ^ ((bucketAt s bj).depth + 1) =
        i₀ % 2 ^ (bucketAt s bj).depth + 2 ^ (bucketAt s bj).depth) ∨
    (∃ j, j ≠ bj ∧ j ≠ s.buckets.length ∧ j < s.buckets.length ∧
      slotPtr s i = some j ∧ slotPtr (splitBucket hash s bj) i = some j) := by
  obtain ⟨j, hj, hjlt⟩ := hwf.slots i hi
  by_cases hjbj : j = bj
  · rw [hjbj] at hj
    by_cases hbit : i / 2 ^ (bucketAt s bj).depth % 2 = 1
    · have hs1 : slotPtr (splitBucket hash s bj) i = some s.buckets.length := by
        rw [split_slotPtr hash s bj hi, if_pos ⟨hj, hbit⟩]
      exact Or.inr (Or.inl ⟨hs1, (split_slot_new_iff hwf hi₀ hbj hi).mp hs1⟩)
    · have hs1 : slotPtr (splitBucket hash s bj) i = some bj := by
        rw [split_slotPtr hash s bj hi, if_neg (fun hq => hbit hq.2)]
        exact hj
      exact Or.inl ⟨hs1, (split_slot_old_iff hwf hi₀ hbj hi).mp hs1⟩
  · have hjn : j ≠ s.buckets.length := by omega
    exact Or.inr (Or.inr ⟨j, hjbj, hjn, hjlt, hj,
      (split_slot_other_iff hi hjbj hjn).mpr hj⟩)

/-- The split of a shared bucket (local depth strictly below the global
depth, as guaranteed by the conditional expansion in `Insert`) preserves
every well-formedness invariant. -/
theorem split_WF (hwf : WFt hash s) (hi₀ : i₀ < s.dir.length)
    (hbj : slotPtr s i₀ = some bj)
    (hdlt : (bucketAt s bj).depth < s.global_depth) :
    WFt hash (splitBucket hash s bj) := by
  have hbjlt := bj_lt hwf hi₀ hbj
  have hdlen := split_dirLen hash s bj
  have hblen := split_bucketsLen hash s bj
  have hpat0 : ∀ x ∈ (bucketAt s bj).list.map Prod.fst,
      hash x % 2 ^ (bucketAt s bj).depth = i₀ % 2 ^ (bucketAt s bj).depth := by
    intro x hx
    have := hwf.pat i₀ hi₀ x (by rwa [dirBucket_of_slotPtr hbj])
    rwa [dirBucket_of_slotPtr hbj] at this
  have hkey0 : ((bucketAt s bj).list.map Prod.fst).Nodup := by
    have := hwf.keysN i₀ hi₀
    rwa [dirBucket_of_slotPtr hbj] at this
  have hcap0 : (bucketAt s bj).size = s.bucket_size := by
    have := hwf.capEq i₀ hi₀
    rwa [dirBucket_of_slotPtr hbj] at this
  refine ⟨?_, ?_, ?_, ?_, ?_, ?_, ?_⟩
  · rw [hdlen]
    exact hwf.dlen
  · intro i hi
    rw [hdlen] at hi
    rcases split_slot_trichotomy hwf hi₀ hbj hi with
      ⟨h1, _⟩ | ⟨h1, _⟩ | ⟨j, _, _, hjlt, _, h1⟩
    · exact ⟨bj, h1, by rw [hblen]; omega⟩
    · exact ⟨s.buckets.length, h1, by rw [hblen]; omega⟩
    · exact ⟨j, h1, by rw [hblen]; omega⟩
  · intro i hi
    rw [hdlen] at hi
    rcases split_slot_trichotomy hwf hi₀ hbj hi with
      ⟨h1, _⟩ | ⟨h1, _⟩ | ⟨j, hjbj, hjn, hjlt, hsp, h1⟩
    · rw [dirBucket_of_slotPtr h1, split_bucketAt_old hash s bj hbjlt]
      show (bucketAt s bj).depth + 1 ≤ s.global_depth
      omega
    · rw [dirBucket_of_slotPtr h1, split_bucketAt_new hash s bj]
      show (bucketAt s bj).depth + 1 ≤ s.global_depth
      omega
    · rw [dirBucket_of_slotPtr h1, split_bucketAt_other hash s bj hjbj hjlt]
      show (bucketAt s j).depth ≤ s.global_depth
      have := hwf.depthLe i hi
      rwa [dirBucket_of_slotPtr hsp] at this
  · intro i hi x hx
    rw [hdlen] at hi
    rcases split_slot_trichotomy hwf hi₀ hbj hi with
      ⟨h1, hmod⟩ | ⟨h1, hmod⟩ | ⟨j, hjbj, hjn, hjlt, hsp, h1⟩
    · rw [dirBucket_of_slotPtr h1, split_bucketAt_old hash s bj hbjlt] at hx ⊢
      dsimp only at hx ⊢
      obtain ⟨p, hp, hpx⟩ := List.mem_map.1 hx
      obtain ⟨hpb, hbit⟩ := (mem_stayedList hwf hdlt).1 hp
      have hpat := hpat0 p.1 (List.mem_map_of_mem Prod.fst hpb)
      have hdecomp := mod_two_pow_succ (hash p.1) (bucketAt s bj).depth
      rw [← hpx]
      rw [hbit] at hdecomp
      omega
    · rw [dirBucket_of_slotPtr h1, split_bucketAt_new hash s bj] at hx ⊢
      dsimp only at hx ⊢
      obtain ⟨p, hp, hpx⟩ := List.mem_map.1 hx
      obtain ⟨hpb, hbit⟩ := (mem_movedList hwf hdlt).1 hp
      have hpat := hpat0 p.1 (List.mem_map_of_mem Prod.fst hpb)
      have hdecomp := mod_two_pow_succ (hash p.1) (bucketAt s bj).depth
      rw [← hpx]
      rw [hbit] at hdecomp
      omega
    · rw [dirBucket_of_slotPtr h1, split_bucketAt_other hash s bj hjbj hjlt] at hx ⊢
      have := hwf.pat i hi x (by rwa [dirBucket_of_slotPtr hsp])
      rwa [dirBucket_of_slotPtr hsp] at this
  · intro i i' hi hi'
    rw [hdlen] at hi hi'
    rcases split_slot_trichotomy hwf hi₀ hbj hi with
      ⟨h1, hmod⟩ | ⟨h1, hmod⟩ | ⟨j, hjbj, hjn, hjlt, hsp, h1⟩
    · rw [h1, dirBucket_of_slotPtr h1, split_bucketAt_old hash s bj hbjlt]
      dsimp only
      have hiff := split_slot_old_iff hwf hi₀ hbj hi'
      constructor
      · intro h
        rw [hmod, hiff.mp h.symm]
      · intro h
        exact (hiff.mpr (by omega)).symm
    · rw [h1, dirBucket_of_slotPtr h1, split_bucketAt_new hash s bj]
      dsimp only
      have hiff := split_slot_new_iff hwf hi₀ hbj hi'
      constructor
      · intro h
        rw [hmod, hiff.mp h.symm]
      · intro h
        exact (hiff.mpr (by omega)).symm
    · rw [h1, dirBucket_of_slotPtr h1, split_bucketAt_other hash s bj hjbj hjlt]
      have hiff : slotPtr (splitBucket hash s bj) i' = some j ↔ slotPtr s i' = some j :=
        split_slot_other_iff hi' hjbj hjn
      have hsh := hwf.share i i' hi hi'
      rw [dirBucket_of_slotPtr hsp] at hsh
      constructor
      · intro h
        refine hsh.mp ?_
        rw [hsp]
        exact (hiff.mp h.symm).symm
      · intro h
        have h2 : slotPtr s i' = some j := by
          rw [← hsh.mpr h, hsp]
        exact (hiff.mpr h2).symm
  · intro i hi
    rw [hdlen] at hi
    rcases split_slot_trichotomy hwf hi₀ hbj hi with
      ⟨h1, _⟩ | ⟨h1, _⟩ | ⟨j, hjbj, hjn, hjlt, hsp, h1⟩
    · rw [dirBucket_of_slotPtr h1, split_bucketAt_old hash s bj hbjlt]
      dsimp only
      exact ((List.filter_sublist _).map Prod.fst).nodup hkey0
    · rw [dirBucket_of_slotPtr h1, split_bucketAt_new hash s bj]
      dsimp only
      exact ((List.filter_sublist _).map Prod.fst).nodup hkey0
    · rw [dirBucket_of_slotPtr h1, split_bucketAt_other hash s bj hjbj hjlt]
      have := hwf.keysN i hi
      rwa [dirBucket_of_slotPtr hsp] at this
  · intro i hi
    rw [hdlen] at hi
    rcases split_slot_trichotomy hwf hi₀ hbj hi with
      ⟨h1, _⟩ | ⟨h1, _⟩ | ⟨j, hjbj, hjn, hjlt, hsp, h1⟩
    · rw [dirBucket_of_slotPtr h1, split_bucketAt_old hash s bj hbjlt]
      show (bucketAt s bj).size = s.bucket_size
      exact hcap0
    · rw [dirBucket_of_slotPtr h1, split_bucketAt_new hash s bj]
      show s.bucket_size = s.bucket_size
      rfl
    · rw [dirBucket_of_slotPtr h1, split_bucketAt_other hash s bj hjbj hjlt]
      show (bucketAt s j).size = s.bucket_size
      have := hwf.capEq i hi
      rwa [dirBucket_of_slotPtr hsp] at this

end SplitWFProof

/-! ## Bucket split: the abstract map is unchanged -/

theorem getDef_mem {α : Type} {l : List α} {i : Nat} (d : α)
    (h : i < l.length) : getDef l i d ∈ l := by
  induction l generalizing i with
  | nil => cases h
  | cons x t ih =>
    cases i with
    | zero => exact List.mem_cons_self _ _
    | succ i => exact List.mem_cons_of_mem _ (ih (by simpa using h))

theorem getDef_of_ge {α : Type} {l : List α} {i : Nat} (d : α)
    (h : l.length ≤ i) : getDef l i d = d := by
  induction l generalizing i with
  | nil => rfl
  | cons x t ih =>
    cases i with
    | zero => cases h
    | succ i => exact ih (by simpa using h)

theorem mem_setNth {α : Type} {l : List α} {i : Nat} {a x : α}
    (h : x ∈ setNth l i a) : x ∈ l ∨ x = a := by
  induction l generalizing i with
  | nil => simp [setNth] at h
  | cons y t ih =>
    cases i with
    | zero =>
      rcases List.mem_cons.1 h with h | h
      · exact Or.inr h
      · exact Or.inl (List.mem_cons_of_mem _ h)
    | succ i =>
      rcases List.mem_cons.1 h with h | h
      · exact Or.inl (h ▸ List.mem_cons_self _ _)
      · rcases ih h with h | h
        · exact Or.inl (List.mem_cons_of_mem _ h)
        · exact Or.inr h

section SplitAbs

variable [DecidableEq K] {hash : K → Nat} {s : EHT K V} {bj i₀ : Nat}

/-- Splitting moves items between the two bucket halves but never adds a
key to the arena. -/
theorem split_tableKeys {x : K} (hx : x ∈ tableKeys (splitBucket hash s bj)) :
    x ∈ tableKeys s := by
  unfold tableKeys at hx ⊢
  rw [List.mem_flatten] at hx ⊢
  obtain ⟨ks, hks, hxk⟩ := hx
  rw [List.mem_map] at hks
  obtain ⟨bk, hbk, hbke⟩ := hks
  subst hbke
  have hmm : bk ∈ setNth s.buckets bj
      (Bucket.mk (bucketAt s bj).size ((bucketAt s bj).depth + 1)
        (stayedList hash s (bucketAt s bj))) ++
      [Bucket.mk s.bucket_size ((bucketAt s bj).depth + 1)
        (movedList hash s (bucketAt s bj))] := hbk
  by_cases hbjlt : bj < s.buckets.length
  · have hold : bucketAt s bj ∈ s.buckets := getDef_mem _ hbjlt
    rcases List.mem_append.1 hmm with hbk1 | hbk1
    · rcases mem_setNth hbk1 with hbk2 | hbk2
      · exact ⟨bk.list.map Prod.fst, List.mem_map_of_mem _ hbk2, hxk⟩
      · subst hbk2
        obtain ⟨p, hp, hpx⟩ := List.mem_map.1 hxk
        have hpb : p ∈ (bucketAt s bj).list :=
          (List.filter_sublist _).subset hp
        exact ⟨(bucketAt s bj).list.map Prod.fst, List.mem_map_of_mem _ hold,
          hpx ▸ List.mem_map_of_mem Prod.fst hpb⟩
    · rw [List.mem_singleton] at hbk1
      subst hbk1
      obtain ⟨p, hp, hpx⟩ := List.mem_map.1 hxk
      have hpb : p ∈ (bucketAt s bj).list :=
        (List.filter_sublist _).subset hp
      exact ⟨(bucketAt s bj).list.map Prod.fst, List.mem_map_of_mem _ hold,
        hpx ▸ List.mem_map_of_mem Prod.fst hpb⟩
  · have hdflt : bucketAt s bj =
        { size := s.bucket_size, depth := 0, list := [] } :=
      getDef_of_ge _ (by omega)
    rcases List.mem_append.1 hmm with hbk1 | hbk1
    · rcases mem_setNth hbk1 with hbk2 | hbk2
      · exact ⟨bk.list.map Prod.fst, List.mem_map_of_mem _ hbk2, hxk⟩
      · subst hbk2
        rw [hdflt] at hxk
        simp [stayedList] at hxk
    · rw [List.mem_singleton] at hbk1
      subst hbk1
      rw [hdflt] at hxk
      simp [movedList] at hxk

/-- A split triggered by `Insert` leaves the abstract key-value map of the
table pointwise unchanged. -/
theorem split_absMap (hwf : WFt hash s) (hi₀ : i₀ < s.dir.length)
    (hbj : slotPtr s i₀ = some bj)
    (hdlt : (bucketAt s bj).depth < s.global_depth) (k' : K) :
    absMap hash (splitBucket hash s bj) k' = absMap hash s k' := by
  have hbjlt := bj_lt hwf hi₀ hbj
  have hi : indexOf hash s k' < s.dir.length := indexOf_lt_dirLen hwf k'
  have hc0 : i₀ % 2 ^ (bucketAt s bj).depth < 2 ^ (bucketAt s bj).depth :=
    Nat.mod_lt _ (Nat.two_pow_pos _)
  have hdecomp := mod_two_pow_succ (indexOf hash s k') (bucketAt s bj).depth
  have hbitchoice : indexOf hash s k' / 2 ^ (bucketAt s bj).depth % 2 = 0 ∨
      indexOf hash s k' / 2 ^ (bucketAt s bj).depth % 2 = 1 := by omega
  unfold absMap
  rw [split_indexOf]
  rcases split_slot_trichotomy hwf hi₀ hbj hi with
    ⟨h1, hmod⟩ | ⟨h1, hmod⟩ | ⟨j, hjbj, hjn, hjlt, hsp, h1⟩
  · -- routed slot keeps pointing at the split bucket: the newly examined
    -- bit of the key's hash is clear, so its items stayed.
    have hbit0 : indexOf hash s k' / 2 ^ (bucketAt s bj).depth % 2 = 0 := by
      rcases hbitchoice with hb | hb
      · exact hb
      · rw [hb] at hdecomp
        omega
    have hmodd : indexOf hash s k' % 2 ^ (bucketAt s bj).depth =
        i₀ % 2 ^ (bucketAt s bj).depth := by
      rw [hbit0] at hdecomp
      omega
    have hsp : slotPtr s (indexOf hash s k') = some bj :=
      (old_bj_char hwf hi₀ hbj hi).mpr hmodd
    rw [dirBucket_of_slotPtr h1, split_bucketAt_old hash s bj hbjlt,
      dirBucket_of_slotPtr hsp]
    show lookupKV (stayedList hash s (bucketAt s bj)) k' =
      lookupKV (bucketAt s bj).list k'
    apply lookupKV_filter
    intro p hp hpk
    rw [hpk, and_shl_eq_zero_iff, Nat.add_sub_cancel, bit_of_indexOf hwf hdlt]
    rw [← bit_of_indexOf hwf hdlt]
    exact hbit0
  · -- routed slot repointed to the sibling: the bit is set, items moved.
    have hbit1 : indexOf hash s k' / 2 ^ (bucketAt s bj).depth % 2 = 1 := by
      rcases hbitchoice with hb | hb
      · rw [hb] at hdecomp
        omega
      · exact hb
    have hmodd : indexOf hash s k' % 2 ^ (bucketAt s bj).depth =
        i₀ % 2 ^ (bucketAt s bj).depth := by
      rw [hbit1] at hdecomp
      omega
    have hsp : slotPtr s (indexOf hash s k') = some bj :=
      (old_bj_char hwf hi₀ hbj hi).mpr hmodd
    rw [dirBucket_of_slotPtr h1, split_bucketAt_new hash s bj,
      dirBucket_of_slotPtr hsp]
    show lookupKV (movedList hash s (bucketAt s bj)) k' =
      lookupKV (bucketAt s bj).list k'
    apply lookupKV_filter
    intro p hp hpk
    have hgoal : (indexOf hash s p.1 &&& (1 <<< (((bucketAt s bj).depth + 1) - 1)))
        ≠ 0 := by
      rw [hpk]
      intro h0
      have : ((indexOf hash s k' &&& (1 <<< (((bucketAt s bj).depth + 1) - 1)))
          == 0) = true := by
        rw [h0]
        rfl
      rw [and_shl_eq_zero_iff, Nat.add_sub_cancel] at this
      omega
    simpa using hgoal
  · -- routed slot points at an untouched bucket.
    rw [dirBucket_of_slotPtr h1, split_bucketAt_other hash s bj hjbj hjlt,
      dirBucket_of_slotPtr hsp]

/-- The local depth of the bucket the key routes to grows by exactly one
across the split of that bucket. -/
theorem split_routed_depth {k : K} (hwf : WFt hash s) (hi₀ : i₀ < s.dir.length)
    (hbj : slotPtr s i₀ = some bj)
    (hroute : slotPtr s (indexOf hash s k) = some bj) :
    (dirBucket (splitBucket hash s bj)
        (indexOf hash (splitBucket hash s bj) k)).depth =
      (bucketAt s bj).depth + 1 := by
  have hbjlt := bj_lt hwf hi₀ hbj
  have hi := indexOf_lt_dirLen hwf k
  rw [split_indexOf]
  rcases split_slot_trichotomy hwf hi₀ hbj hi with
    ⟨h1, _⟩ | ⟨h1, _⟩ | ⟨j, hjbj, _, hjlt, hsp, h1⟩
  · rw [dirBucket_of_slotPtr h1, split_bucketAt_old hash s bj hbjlt]
  · rw [dirBucket_of_slotPtr h1, split_bucketAt_new hash s bj]
  · rw [hroute] at hsp
    injection hsp with h'
    exact absurd h'.symm hjbj

end SplitAbs

/-! ## Bucket insert and the write-back of a successful insertion -/

section InsertWrite

variable [DecidableEq K] {hash : K → Nat} {s : EHT K V} {k : K} {v : V}

theorem insertB_pos {b : Bucket K V} (v : V) (h : containsKey b.list k = true) :
    b.insertB k v = some { b with list := setVal b.list k v } := by
  unfold Bucket.insertB
  rw [if_pos h]

theorem insertB_neg {b : Bucket K V} (v : V) (h : containsKey b.list k = false)
    (hf : b.isFull = false) :
    b.insertB k v = some { b with list := b.list ++ [(k, v)] } := by
  unfold Bucket.insertB
  rw [if_neg (by simp [h]), if_neg (by simp [hf])]

theorem insertB_none {b : Bucket K V} {v : V} (h : b.insertB k v = none) :
    containsKey b.list k = false ∧ b.isFull = true := by
  unfold Bucket.insertB at h
  by_cases hc : containsKey b.list k = true
  · rw [if_pos hc] at h
    cases h
  · have hc' : containsKey b.list k = false := by
      cases hq : containsKey b.list k
      · rfl
      · exact absurd hq hc
    rw [if_neg (by simp [hc'])] at h
    by_cases hf : b.isFull = true
    · exact ⟨hc', hf⟩
    · rw [if_neg hf] at h
      cases h

/-- Every fact we need about a successful `Bucket::Insert`: depth, size
and key set are essentially preserved, the inserted key now maps to `v`,
and no other key's binding changes. -/
theorem insertB_facts {b b' : Bucket K V} (hn : (b.list.map Prod.fst).Nodup)
    (h : b.insertB k v = some b') :
    b'.depth = b.depth ∧ b'.size = b.size ∧
    lookupKV b'.list k = some v ∧
    (∀ k', k' ≠ k → lookupKV b'.list k' = lookupKV b.list k') ∧
    (b'.list.map Prod.fst).Nodup ∧
    (∀ x, x ∈ b'.list.map Prod.fst → x = k ∨ x ∈ b.list.map Prod.fst) := by
  by_cases hc : containsKey b.list k = true
  · rw [insertB_pos v hc] at h
    injection h with h'
    subst h'
    refine ⟨rfl, rfl, lookupKV_setVal_self v hc, fun k' hk' => lookupKV_setVal_ne v hk',
      ?_, ?_⟩
    · show ((setVal b.list k v).map Prod.fst).Nodup
      rw [map_fst_setVal]
      exact hn
    · intro x hx
      rw [show ({ b with list := setVal b.list k v } : Bucket K V).list =
        setVal b.list k v from rfl, map_fst_setVal] at hx
      exact Or.inr hx
  · have hc' : containsKey b.list k = false := by
      cases hq : containsKey b.list k
      · rfl
      · exact absurd hq hc
    have hf : b.isFull = false := by
      cases hq : b.isFull
      · rfl
      · exfalso
        unfold Bucket.insertB at h
        rw [if_neg (by simp [hc']), if_pos (by simp [hq])] at h
        cases h
    rw [insertB_neg v hc' hf] at h
    injection h with h'
    subst h'
    have hknot : k ∉ b.list.map Prod.fst := by
      intro hk
      rw [← containsKey_iff] at hk
      rw [hk] at hc'
      cases hc'
    refine ⟨rfl, rfl, lookupKV_append_self v hc',
      fun k' hk' => lookupKV_append_ne v hk', ?_, ?_⟩
    · show ((b.list ++ [(k, v)]).map Prod.fst).Nodup
      simp only [List.map_append, List.map_cons, List.map_nil]
      rw [List.nodup_append]
      refine ⟨hn, List.nodup_singleton _, ?_⟩
      intro a ha hb
      rw [List.mem_singleton] at hb
      subst hb
      exact hknot ha
    · intro x hx
      rw [show ({ b with list := b.list ++ [(k, v)] } : Bucket K V).list =
        b.list ++ [(k, v)] from rfl] at hx
      simp only [List.map_append, List.map_cons, List.map_nil] at hx
      rcases List.mem_append.1 hx with hx | hx
      · exact Or.inr hx
      · rw [List.mem_singleton] at hx
        exact Or.inl hx

/-- Writing a successfully mutated bucket back into its arena cell keeps
the table well-formed, binds `k` to `v`, and leaves every other key's
binding unchanged. -/
theorem insert_write_WF (hwf : WFt hash s) {j : Nat} {b' : Bucket K V}
    (hj : slotPtr s (indexOf hash s k) = some j)
    (hins : (dirBucket s (indexOf hash s k)).insertB k v = some b') :
    WFt hash { s with buckets := setNth s.buckets j b' } ∧
    absMap hash { s with buckets := setNth s.buckets j b' } k = some v ∧
    ∀ k', k' ≠ k → absMap hash { s with buckets := setNth s.buckets j b' } k' =
      absMap hash s k' := by
  have hidx : indexOf hash s k < s.dir.length := indexOf_lt_dirLen hwf k
  have hjlt : j < s.buckets.length := bj_lt hwf hidx hj
  have hb : dirBucket s (indexOf hash s k) = bucketAt s j := dirBucket_of_slotPtr hj
  rw [hb] at hins
  have hn0 : ((bucketAt s j).list.map Prod.fst).Nodup := by
    have := hwf.keysN _ hidx
    rwa [hb] at this
  obtain ⟨hdep, hsz, hlk, hlkne, hnod, hkeys⟩ := insertB_facts hn0 hins
  set s2 := { s with buckets := setNth s.buckets j b' } with hs2
  have hslot2 : ∀ i, slotPtr s2 i = slotPtr s i := fun i => rfl
  have hbuckets2 : s2.buckets.length = s.buckets.length := by
    show (setNth s.buckets j b').length = _
    exact length_setNth _ _ _
  have hbAt : ∀ j'', j'' < s.buckets.length →
      bucketAt s2 j'' = if j'' = j then b' else bucketAt s j'' := by
    intro j'' hj''
    by_cases he : j'' = j
    · subst he
      rw [if_pos rfl]
      show getDef (setNth s.buckets j'' b') j'' _ = b'
      exact getDef_setNth_eq _ _ (by omega)
    · rw [if_neg he]
      show getDef (setNth s.buckets j b') j'' _ = getDef s.buckets j'' _
      exact getDef_setNth_ne _ _ (fun hq => he hq.symm)
  have hdirB : ∀ i, i < s.dir.length →
      dirBucket s2 i = if slotPtr s i = some j then b' else dirBucket s i := by
    intro i hi
    obtain ⟨j'', hj'', hj''lt⟩ := hwf.slots i hi
    rw [dirBucket_of_slotPtr (show slotPtr s2 i = some j'' from hj'')]
    rw [hbAt j'' hj''lt]
    by_cases he : j'' = j
    · subst he
      rw [if_pos rfl, if_pos hj'']
    · have hne : ¬ slotPtr s i = some j := by
        intro hq
        rw [hj''] at hq
        injection hq with hq'
        exact he hq'
      rw [if_neg he, if_neg hne, dirBucket_of_slotPtr hj'']
  refine ⟨⟨?_, ?_, ?_, ?_, ?_, ?_, ?_⟩, ?_, ?_⟩
  · show s.dir.length = 2 ^ s.global_depth
    exact hwf.dlen
  · intro i hi
    obtain ⟨j'', hj'', hj''lt⟩ := hwf.slots i hi
    exact ⟨j'', hj'', by rwa [hbuckets2]⟩
  · intro i hi
    have hi' : i < s.dir.length := hi
    rw [hdirB i hi']
    by_cases hc : slotPtr s i = some j
    · rw [if_pos hc]
      show b'.depth ≤ s.global_depth
      rw [hdep]
      have := hwf.depthLe i hi'
      rwa [dirBucket_of_slotPtr hc] at this
    · rw [if_neg hc]
      exact hwf.depthLe i hi'
  · intro i hi x hx
    have hi' : i < s.dir.length := hi
    rw [hdirB i hi'] at hx ⊢
    by_cases hc : slotPtr s i = some j
    · rw [if_pos hc] at hx ⊢
      rw [hdep]
      rcases hkeys x hx with hxk | hxold
      · rw [hxk]
        have hshare := hwf.share i (indexOf hash s k) hi' hidx
        rw [dirBucket_of_slotPtr hc] at hshare
        have hieq : i % 2 ^ (bucketAt s j).depth =
            indexOf hash s k % 2 ^ (bucketAt s j).depth :=
          hshare.mp (by rw [hc, hj])
        have hdeple : (bucketAt s j).depth ≤ s.global_depth := by
          have := hwf.depthLe _ hidx
          rwa [hb] at this
        have hhk : hash k % 2 ^ (bucketAt s j).depth =
            indexOf hash s k % 2 ^ (bucketAt s j).depth := by
          rw [indexOf_eq_mod]
          exact (mod_mod_two_pow_le hdeple _).symm
        rw [hhk, hieq]
      · have := hwf.pat i hi' x (by rwa [dirBucket_of_slotPtr hc])
        rwa [dirBucket_of_slotPtr hc] at this
    · rw [if_neg hc] at hx ⊢
      exact hwf.pat i hi' x hx
  · intro i i' hi hi'
    have h1 : i < s.dir.length := hi
    have h2 : i' < s.dir.length := hi'
    have hdepth2 : (dirBucket s2 i).depth = (dirBucket s i).depth := by
      rw [hdirB i h1]
      by_cases hc : slotPtr s i = some j
      · rw [if_pos hc, hdep, dirBucket_of_slotPtr hc]
      · rw [if_neg hc]
    rw [hslot2 i, hslot2 i', hdepth2]
    exact hwf.share i i' h1 h2
  · intro i hi
    have hi' : i < s.dir.length := hi
    rw [hdirB i hi']
    by_cases hc : slotPtr s i = some j
    · rw [if_pos hc]
      exact hnod
    · rw [if_neg hc]
      exact hwf.keysN i hi'
  · intro i hi
    have hi' : i < s.dir.length := hi
    rw [hdirB i hi']
    by_cases hc : slotPtr s i = some j
    · rw [if_pos hc]
      show b'.size = s.bucket_size
      rw [hsz]
      have := hwf.capEq i hi'
      rwa [dirBucket_of_slotPtr hc] at this
    · rw [if_neg hc]
      exact hwf.capEq i hi'
  · unfold absMap
    have he : indexOf hash s2 k = indexOf hash s k := rfl
    rw [he, hdirB _ hidx, if_pos hj]
    show lookupKV b'.list k = some v
    exact hlk
  · intro k' hk'
    unfold absMap
    have hidx' : indexOf hash s k' < s.dir.length := indexOf_lt_dirLen hwf k'
    have he : indexOf hash s2 k' = indexOf hash s k' := rfl
    rw [he, hdirB _ hidx']
    by_cases hc : slotPtr s (indexOf hash s k') = some j
    · rw [if_pos hc, dirBucket_of_slotPtr hc]
      show lookupKV b'.list k' = lookupKV (bucketAt s j).list k'
      exact hlkne k' hk'
    · rw [if_neg hc]

end InsertWrite

/-! ## The failing loop iteration: expand (maybe) and split -/

section BodyStep

variable [DecidableEq K] {hash : K → Nat}

theorem splitPhase_sound {s1 : EHT K V} {bj : Nat} (k : K)
    (hwf1 : WFt hash s1)
    (hbj : slotPtr s1 (indexOf hash s1 k) = some bj)
    (hdlt : (bucketAt s1 bj).depth < s1.global_depth) :
    WFt hash (splitBucket hash s1 bj) ∧
    (∀ k', absMap hash (splitBucket hash s1 bj) k' = absMap hash s1 k') ∧
    (splitBucket hash s1 bj).bucket_size = s1.bucket_size ∧
    indexOf hash (splitBucket hash s1 bj) k = indexOf hash s1 k ∧
    (dirBucket (splitBucket hash s1 bj)
        (indexOf hash (splitBucket hash s1 bj) k)).depth =
      (bucketAt s1 bj).depth + 1 ∧
    (∀ x, x ∈ tableKeys (splitBucket hash s1 bj) → x ∈ tableKeys s1) := by
  have hi₀ : indexOf hash s1 k < s1.dir.length := indexOf_lt_dirLen hwf1 k
  exact ⟨split_WF hwf1 hi₀ hbj hdlt,
    fun k' => split_absMap hwf1 hi₀ hbj hdlt k',
    split_bsize hash s1 bj,
    split_indexOf hash s1 bj k,
    split_routed_depth hwf1 hi₀ hbj hbj,
    fun x => split_tableKeys⟩

/-- A failing iteration of the `Insert` loop keeps the table well-formed,
does not change the abstract map, capacity or key population, keeps the
carried `index` equal to `IndexOf(key)`, and increments the local depth of
the bucket the key routes to by exactly one. -/
theorem insertFail_sound {s : EHT K V} (k : K) (hwf : WFt hash s) :
    WFt hash (insertFail hash s (indexOf hash s k) k).1 ∧
    (insertFail hash s (indexOf hash s k) k).2 =
      indexOf hash (insertFail hash s (indexOf hash s k) k).1 k ∧
    (∀ k', absMap hash (insertFail hash s (indexOf hash s k) k).1 k' =
      absMap hash s k') ∧
    (insertFail hash s (indexOf hash s k) k).1.bucket_size = s.bucket_size ∧
    (dirBucket (insertFail hash s (indexOf hash s k) k).1
        (indexOf hash (insertFail hash s (indexOf hash s k) k).1 k)).depth =
      (dirBucket s (indexOf hash s k)).depth + 1 ∧
    (∀ x, x ∈ tableKeys (insertFail hash s (indexOf hash s k) k).1 →
      x ∈ tableKeys s) := by
  have hidx : indexOf hash s k < s.dir.length := indexOf_lt_dirLen hwf k
  obtain ⟨bj, hbj, hbjlt⟩ := hwf.slots _ hidx
  have hdb : dirBucket s (indexOf hash s k) = bucketAt s bj := dirBucket_of_slotPtr hbj
  by_cases hcond : (dirBucket s (indexOf hash s k)).depth = s.global_depth
  · -- local depth equals global depth: expand first, then split.
    have hwf1 : WFt hash (expandTable s) := expand_WF hwf
    have hbj1 : slotPtr (expandTable s) (indexOf hash (expandTable s) k) = some bj := by
      rw [expand_routed hwf k]
      exact hbj
    have hdlt1 : (bucketAt (expandTable s) bj).depth < (expandTable s).global_depth := by
      show (bucketAt s bj).depth < s.global_depth + 1
      rw [← hdb, hcond]
      omega
    have hred : insertFail hash s (indexOf hash s k) k =
        (splitBucket hash (expandTable s) bj, indexOf hash (expandTable s) k) := by
      unfold insertFail
      simp only [if_pos hcond]
      rw [hbj1]
    obtain ⟨q1, q2, q3, q4, q5, q6⟩ := splitPhase_sound k hwf1 hbj1 hdlt1
    rw [hred]
    refine ⟨q1, ?_, ?_, ?_, ?_, ?_⟩
    · show indexOf hash (expandTable s) k = indexOf hash (splitBucket hash (expandTable s) bj) k
      rw [q4]
    · intro k'
      show absMap hash (splitBucket hash (expandTable s) bj) k' = absMap hash s k'
      rw [q2 k', expand_absMap hwf k']
    · show (splitBucket hash (expandTable s) bj).bucket_size = s.bucket_size
      rw [q3]
      rfl
    · show (dirBucket (splitBucket hash (expandTable s) bj)
          (indexOf hash (splitBucket hash (expandTable s) bj) k)).depth =
        (dirBucket s (indexOf hash s k)).depth + 1
      rw [q5]
      show (bucketAt s bj).depth + 1 = _
      rw [hdb]
    · intro x hx
      exact q6 x hx
  · -- local depth below global depth: split directly.
    have hdlt1 : (bucketAt s bj).depth < s.global_depth := by
      have hle := hwf.depthLe _ hidx
      rw [hdb] at hle hcond
      omega
    have hred : insertFail hash s (indexOf hash s k) k =
        (splitBucket hash s bj, indexOf hash s k) := by
      unfold insertFail
      simp only [if_neg hcond]
      rw [hbj]
    obtain ⟨q1, q2, q3, q4, q5, q6⟩ := splitPhase_sound k hwf hbj hdlt1
    rw [hred]
    refine ⟨q1, ?_, ?_, q3, ?_, ?_⟩
    · show indexOf hash s k = indexOf hash (splitBucket hash s bj) k
      rw [q4]
    · intro k'
      exact q2 k'
    · show (dirBucket (splitBucket hash s bj)
          (indexOf hash (splitBucket hash s bj) k)).depth =
        (dirBucket s (indexOf hash s k)).depth + 1
      rw [q5, hdb]
    · intro x hx
      exact q6 x hx

end BodyStep

/-! ## Soundness of the full insert loop, remove and find -/

section OpsSound

variable [DecidableEq K] {hash : K → Nat}

theorem insertGo_sound (hash : K → Nat) (k : K) (v : V) :
    ∀ (fuel : Nat) (s s' : EHT K V), WFt hash s →
      insertGo hash fuel s (indexOf hash s k) k v = some s' →
      WFt hash s' ∧ absMap hash s' k = some v ∧
        ∀ k', k' ≠ k → absMap hash s' k' = absMap hash s k' := by
  intro fuel
  induction fuel with
  | zero =>
    intro s s' hwf h
    cases h
  | succ fuel ih =>
    intro s s' hwf h
    rw [insertGo] at h
    cases hins : (dirBucket s (indexOf hash s k)).insertB k v with
    | some b' =>
      rw [hins] at h
      obtain ⟨j, hj, hjlt⟩ := hwf.slots _ (indexOf_lt_dirLen hwf k)
      have h2 : (match slotPtr s (indexOf hash s k) with
        | some j => some { s with buckets := setNth s.buckets j b' }
        | none => some s) = some s' := h
      rw [hj] at h2
      have h3 : some { s with buckets := setNth s.buckets j b' } = some s' := h2
      have hs : { s with buckets := setNth s.buckets j b' } = s' := by
        injection h3
      obtain ⟨w1, w2, w3⟩ := insert_write_WF hwf hj hins
      exact hs ▸ ⟨w1, w2, w3⟩
    | none =>
      rw [hins] at h
      have h2 : insertGo hash fuel (insertFail hash s (indexOf hash s k) k).1
          (insertFail hash s (indexOf hash s k) k).2 k v = some s' := h
      obtain ⟨f1, f2, f3, f4, f5, f6⟩ := insertFail_sound k hwf
      rw [f2] at h2
      obtain ⟨r1, r2, r3⟩ := ih _ s' f1 h2
      refine ⟨r1, r2, ?_⟩
      intro k' hk'
      rw [r3 k' hk', f3 k']

theorem lookupKV_eq_none_of_contains_false {l : List (K × V)} {k : K}
    (h : containsKey l k = false) : lookupKV l k = none := by
  apply lookupKV_eq_none_of_not_mem
  intro hm
  rw [← containsKey_iff] at hm
  rw [hm] at h
  cases h

/-- Writing back a bucket whose key set shrank (or stayed) and whose `k`
binding is gone keeps the table well-formed, unbinds `k`, and leaves every
other key's binding unchanged. -/
theorem remove_write_WF {s : EHT K V} {k : K} {j : Nat} {b2 : Bucket K V}
    (hwf : WFt hash s)
    (hj : slotPtr s (indexOf hash s k) = some j)
    (hdep : b2.depth = (bucketAt s j).depth)
    (hsz : b2.size = (bucketAt s j).size)
    (hsub : ∀ x ∈ b2.list.map Prod.fst, x ∈ (bucketAt s j).list.map Prod.fst)
    (hnod : (b2.list.map Prod.fst).Nodup)
    (hlkk : lookupKV b2.list k = none)
    (hlkne : ∀ k', k' ≠ k → lookupKV b2.list k' = lookupKV (bucketAt s j).list k') :
    WFt hash { s with buckets := setNth s.buckets j b2 } ∧
    absMap hash { s with buckets := setNth s.buckets j b2 } k = none ∧
    ∀ k', k' ≠ k → absMap hash { s with buckets := setNth s.buckets j b2 } k' =
      absMap hash s k' := by
  have hidx : indexOf hash s k < s.dir.length := indexOf_lt_dirLen hwf k
  have hjlt : j < s.buckets.length := bj_lt hwf hidx hj
  set s2 := { s with buckets := setNth s.buckets j b2 } with hs2
  have hslot2 : ∀ i, slotPtr s2 i = slotPtr s i := fun i => rfl
  have hbuckets2 : s2.buckets.length = s.buckets.length := by
    show (setNth s.buckets j b2).length = _
    exact length_setNth _ _ _
  have hbAt : ∀ j'', j'' < s.buckets.length →
      bucketAt s2 j'' = if j'' = j then b2 else bucketAt s j'' := by
    intro j'' hj''
    by_cases he : j'' = j
    · subst he
      rw [if_pos rfl]
      show getDef (setNth s.buckets j'' b2) j'' _ = b2
      exact getDef_setNth_eq _ _ (by omega)
    · rw [if_neg he]
      show getDef (setNth s.buckets j b2) j'' _ = getDef s.buckets j'' _
      exact getDef_setNth_ne _ _ (fun hq => he hq.symm)
  have hdirB : ∀ i, i < s.dir.length →
      dirBucket s2 i = if slotPtr s i = some j then b2 else dirBucket s i := by
    intro i hi
    obtain ⟨j'', hj'', hj''lt⟩ := hwf.slots i hi
    rw [dirBucket_of_slotPtr (show slotPtr s2 i = some j'' from hj'')]
    rw [hbAt j'' hj''lt]
    by_cases he : j'' = j
    · subst he
      rw [if_pos rfl, if_pos hj'']
    · have hne : ¬ slotPtr s i = some j := by
        intro hq
        rw [hj''] at hq
        injection hq with hq'
        exact he hq'
      rw [if_neg he, if_neg hne, dirBucket_of_slotPtr hj'']
  refine ⟨⟨?_, ?_, ?_, ?_, ?_, ?_, ?_⟩, ?_, ?_⟩
  · show s.dir.length = 2 ^ s.global_depth
    exact hwf.dlen
  · intro i hi
    obtain ⟨j'', hj'', hj''lt⟩ := hwf.slots i hi
    exact ⟨j'', hj'', by rwa [hbuckets2]⟩
  · intro i hi
    have hi' : i < s.dir.length := hi
    rw [hdirB i hi']
    by_cases hc : slotPtr s i = some j
    · rw [if_pos hc]
      show b2.depth ≤ s.global_depth
      rw [hdep]
      have := hwf.depthLe i hi'
      rwa [dirBucket_of_slotPtr hc] at this
    · rw [if_neg hc]
      exact hwf.depthLe i hi'
  · intro i hi x hx
    have hi' : i < s.dir.length := hi
    rw [hdirB i hi'] at hx ⊢
    by_cases hc : slotPtr s i = some j
    · rw [if_pos hc] at hx ⊢
      rw [hdep]
      have hxold := hsub x hx
      have := hwf.pat i hi' x (by rwa [dirBucket_of_slotPtr hc])
      rwa [dirBucket_of_slotPtr hc] at this
    · rw [if_neg hc] at hx ⊢
      exact hwf.pat i hi' x hx
  · intro i i' hi hi'
    have h1 : i < s.dir.length := hi
    have h2 : i' < s.dir.length := hi'
    have hdepth2 : (dirBucket s2 i).depth = (dirBucket s i).depth := by
      rw [hdirB i h1]
      by_cases hc : slotPtr s i = some j
      · rw [if_pos hc, hdep, dirBucket_of_slotPtr hc]
      · rw [if_neg hc]
    rw [hslot2 i, hslot2 i', hdepth2]
    exact hwf.share i i' h1 h2
  · intro i hi
    have hi' : i < s.dir.length := hi
    rw [hdirB i hi']
    by_cases hc : slotPtr s i = some j
    · rw [if_pos hc]
      exact hnod
    · rw [if_neg hc]
      exact hwf.keysN i hi'
  · intro i hi
    have hi' : i < s.dir.length := hi
    rw [hdirB i hi']
    by_cases hc : slotPtr s i = some j
    · rw [if_pos hc]
      show b2.size = s.bucket_size
      rw [hsz]
      have := hwf.capEq i hi'
      rwa [dirBucket_of_slotPtr hc] at this
    · rw [if_neg hc]
      exact hwf.capEq i hi'
  · unfold absMap
    have he : indexOf hash s2 k = indexOf hash s k := rfl
    rw [he, hdirB _ hidx, if_pos hj]
    show lookupKV b2.list k = none
    exact hlkk
  · intro k' hk'
    unfold absMap
    have hidx' : indexOf hash s k' < s.dir.length := indexOf_lt_dirLen hwf k'
    have he : indexOf hash s2 k' = indexOf hash s k' := rfl
    rw [he, hdirB _ hidx']
    by_cases hc : slotPtr s (indexOf hash s k') = some j
    · rw [if_pos hc, dirBucket_of_slotPtr hc]
      show lookupKV b2.list k' = lookupKV (bucketAt s j).list k'
      exact hlkne k' hk'
    · rw [if_neg hc]

theorem removeT_sound {s : EHT K V} (hwf : WFt hash s) (k : K) :
    WFt hash (removeT hash s k).2 ∧
    absMap hash (removeT hash s k).2 k = none ∧
    ∀ k', k' ≠ k → absMap hash (removeT hash s k).2 k' = absMap hash s k' := by
  have hidx : indexOf hash s k < s.dir.length := indexOf_lt_dirLen hwf k
  obtain ⟨j, hj, hjlt⟩ := hwf.slots _ hidx
  have hn0 : ((bucketAt s j).list.map Prod.fst).Nodup := by
    have := hwf.keysN _ hidx
    rwa [dirBucket_of_slotPtr hj] at this
  have hred : removeT hash s k =
      (((bucketAt s j).removeB k).1,
        { s with buckets := setNth s.buckets j ((bucketAt s j).removeB k).2 }) := by
    simp only [removeT]
    rw [if_neg (by omega), hj]
  by_cases hc : containsKey (bucketAt s j).list k = true
  · have hrb : (bucketAt s j).removeB k =
        (true, { bucketAt s j with list := eraseKV (bucketAt s j).list k }) := by
      unfold Bucket.removeB
      rw [if_pos hc]
    rw [hred, hrb]
    exact remove_write_WF hwf hj rfl rfl
      (fun x hx => ((eraseKV_sublist _ _).map Prod.fst).subset hx)
      (((eraseKV_sublist _ _).map Prod.fst).nodup hn0)
      (lookupKV_eraseKV_self hn0)
      (fun k' hk' => lookupKV_eraseKV_ne hk')
  · have hc' : containsKey (bucketAt s j).list k = false := by
      cases hq : containsKey (bucketAt s j).list k
      · rfl
      · exact absurd hq hc
    have hrb : (bucketAt s j).removeB k = (false, bucketAt s j) := by
      unfold Bucket.removeB
      rw [if_neg (by simp [hc'])]
    rw [hred, hrb]
    exact remove_write_WF hwf hj rfl rfl (fun x hx => hx) hn0
      (lookupKV_eq_none_of_contains_false hc')
      (fun k' _ => rfl)

theorem findT_eq_absMap {s : EHT K V} (hwf : WFt hash s) (k : K) :
    findT hash s k = absMap hash s k := by
  have hidx : indexOf hash s k < s.dir.length := indexOf_lt_dirLen hwf k
  obtain ⟨j, hj, _⟩ := hwf.slots _ hidx
  simp only [findT]
  rw [if_neg (by omega), hj]
  unfold absMap
  rw [dirBucket_of_slotPtr hj]

theorem newEHT_WF (hash : K → Nat) (cap : Nat) : WFt hash (newEHT K V cap) := by
  refine ⟨rfl, ?_, ?_, ?_, ?_, ?_, ?_⟩
  · intro i hi
    have h0 : i = 0 := by
      have : i < 1 := hi
      omega
    subst h0
    exact ⟨0, rfl, by show (0 : Nat) < 1; omega⟩
  · intro i hi
    have h0 : i = 0 := by
      have : i < 1 := hi
      omega
    subst h0
    show (0 : Nat) ≤ 0
    omega
  · intro i hi x hx
    have h0 : i = 0 := by
      have : i < 1 := hi
      omega
    subst h0
    have hx' : x ∈ ([] : List K) := hx
    cases hx'
  · intro i i' hi hi'
    have h0 : i = 0 := by
      have : i < 1 := hi
      omega
    have h0' : i' = 0 := by
      have : i' < 1 := hi'
      omega
    subst h0
    subst h0'
    exact ⟨fun _ => rfl, fun _ => rfl⟩
  · intro i hi
    have h0 : i = 0 := by
      have : i < 1 := hi
      omega
    subst h0
    exact List.nodup_nil
  · intro i hi
    have h0 : i = 0 := by
      have : i < 1 := hi
      omega
    subst h0
    rfl

theorem absMap_newEHT (hash : K → Nat) (cap : Nat) (k : K) :
    absMap hash (newEHT K V cap) k = none := by
  unfold absMap
  have h0 : indexOf hash (newEHT K V cap) k = 0 := by
    rw [indexOf_eq_mod]
    show hash k % 2 ^ 0 = 0
    rw [Nat.pow_zero]
    exact Nat.mod_one _
  rw [h0]
  rfl

theorem specFrom_congr {m1 m2 : K → Option V} (h : ∀ k, m1 k = m2 k) :
    ∀ (ops : List (EOp K V)) (k : K), specFrom m1 ops k = specFrom m2 ops k := by
  intro ops
  induction ops generalizing m1 m2 h with
  | nil => exact h
  | cons op rest ih =>
    intro k
    show specFrom (specStep m1 op) rest k = specFrom (specStep m2 op) rest k
    apply ih
    intro q
    cases op with
    | ins k0 v0 =>
      show (if q = k0 then some v0 else m1 q) = (if q = k0 then some v0 else m2 q)
      rw [h q]
    | rem k0 =>
      show (if q = k0 then none else m1 q) = (if q = k0 then none else m2 q)
      rw [h q]

theorem runFrom_sound (hash : K → Nat) (fuel : Nat) :
    ∀ (ops : List (EOp K V)) (s s' : EHT K V), WFt hash s →
      runFrom hash fuel s ops = some s' →
      WFt hash s' ∧ ∀ k, absMap hash s' k = specFrom (absMap hash s) ops k := by
  intro ops
  induction ops with
  | nil =>
    intro s s' hwf h
    have h2 : some s = some s' := h
    have hs : s = s' := by injection h2
    subst hs
    exact ⟨hwf, fun k => rfl⟩
  | cons op rest ih =>
    intro s s' hwf h
    rw [runFrom] at h
    cases hap : applyOp hash fuel s op with
    | none =>
      rw [hap] at h
      have h2 : (none : Option (EHT K V)) = some s' := h
      cases h2
    | some s1 =>
      rw [hap] at h
      have h2 : runFrom hash fuel s1 rest = some s' := h
      cases op with
      | ins k0 v0 =>
        have hins : insertT hash fuel s k0 v0 = some s1 := hap
        obtain ⟨w1, w2, w3⟩ := insertGo_sound hash k0 v0 fuel s s1 hwf hins
        obtain ⟨r1, r2⟩ := ih s1 s' w1 h2
        refine ⟨r1, ?_⟩
        intro k
        rw [r2 k]
        show specFrom (absMap hash s1) rest k =
          specFrom (specStep (absMap hash s) (EOp.ins k0 v0)) rest k
        apply specFrom_congr
        intro q
        show absMap hash s1 q = if q = k0 then some v0 else absMap hash s q
        by_cases hq : q = k0
        · rw [if_pos hq, hq]
          exact w2
        · rw [if_neg hq]
          exact w3 q hq
      | rem k0 =>
        have hrem : some (removeT hash s k0).2 = some s1 := hap
        have hs1 : (removeT hash s k0).2 = s1 := by injection hrem
        obtain ⟨w1, w2, w3⟩ := removeT_sound hwf k0
        rw [hs1] at w1 w2 w3
        obtain ⟨r1, r2⟩ := ih s1 s' w1 h2
        refine ⟨r1, ?_⟩
        intro k
        rw [r2 k]
        apply specFrom_congr
        intro q
        show absMap hash s1 q = if q = k0 then none else absMap hash s q
        by_cases hq : q = k0
        · rw [if_pos hq, hq]
          exact w2
        · rw [if_neg hq]
          exact w3 q hq

theorem runOps_sound (hash : K → Nat) (fuel cap : Nat) (ops : List (EOp K V))
    (s : EHT K V) (h : runOps hash fuel cap ops = some s) :
    WFt hash s ∧ ∀ k, absMap hash s k = specOf ops k := by
  obtain ⟨r1, r2⟩ := runFrom_sound hash fuel ops (newEHT K V cap) s
    (newEHT_WF hash cap) h
  refine ⟨r1, ?_⟩
  intro k
  rw [r2 k]
  apply specFrom_congr
  intro q
  rw [absMap_newEHT]

end OpsSound

/-! ## Termination of the split loop under hash distinguishability -/

section Termination

variable [DecidableEq K] {hash : K → Nat}

/-- Key lemma: a failing `Bucket::Insert` on the routed bucket forces the
bucket's local depth below any width `w` at which the stored keys and the
inserted key have pairwise distinct hashes (with positive capacity a full
bucket at depth `≥ w` would have to contain the key itself). -/
theorem fail_depth_lt {s : EHT K V} {k : K} {v : V} {w : Nat}
    (hwf : WFt hash s) (hcap : 1 ≤ s.bucket_size)
    (hdist : ∀ k1 ∈ k :: tableKeys s, ∀ k2 ∈ k :: tableKeys s,
      hash k1 % 2 ^ w = hash k2 % 2 ^ w → k1 = k2)
    (hins : (dirBucket s (indexOf hash s k)).insertB k v = none) :
    (dirBucket s (indexOf hash s k)).depth < w := by
  by_contra hge
  push_neg at hge
  have hfull := insertB_none hins
  have hidx : indexOf hash s k < s.dir.length := indexOf_lt_dirLen hwf k
  obtain ⟨j, hj, hjlt⟩ := hwf.slots _ hidx
  have hb : dirBucket s (indexOf hash s k) = bucketAt s j := dirBucket_of_slotPtr hj
  have hlen : (dirBucket s (indexOf hash s k)).list.length =
      (dirBucket s (indexOf hash s k)).size := by
    have h2 := hfull.2
    unfold Bucket.isFull at h2
    simpa using h2
  have hsz : (dirBucket s (indexOf hash s k)).size = s.bucket_size :=
    hwf.capEq _ hidx
  obtain ⟨p, hp⟩ : ∃ p, p ∈ (dirBucket s (indexOf hash s k)).list := by
    cases hq : (dirBucket s (indexOf hash s k)).list with
    | nil =>
      exfalso
      rw [hq] at hlen
      simp at hlen
      omega
    | cons p t =>
      exact ⟨p, List.mem_cons_self _ _⟩
  have hpat := hwf.pat (indexOf hash s k) hidx p.1 (List.mem_map_of_mem Prod.fst hp)
  have hdeple : (dirBucket s (indexOf hash s k)).depth ≤ s.global_depth :=
    hwf.depthLe _ hidx
  have hik : ∀ dep, dep ≤ s.global_depth →
      indexOf hash s k % 2 ^ dep = hash k % 2 ^ dep := by
    intro dep hdep
    rw [indexOf_eq_mod]
    exact mod_mod_two_pow_le hdep _
  have hw : hash p.1 % 2 ^ w = hash k % 2 ^ w := by
    have h1 : hash p.1 % 2 ^ (dirBucket s (indexOf hash s k)).depth =
        hash k % 2 ^ (dirBucket s (indexOf hash s k)).depth :=
      hpat.trans (hik _ hdeple)
    have h2 := congrArg (fun t => t % 2 ^ w) h1
    simpa [mod_mod_two_pow_le hge] using h2
  have hpk : p.1 ∈ tableKeys s := by
    have hmem : p.1 ∈ (bucketAt s j).list.map Prod.fst := by
      rw [← hb]
      exact List.mem_map_of_mem Prod.fst hp
    have hb2 : bucketAt s j ∈ s.buckets := getDef_mem _ hjlt
    unfold tableKeys
    exact List.mem_flatten.2 ⟨(bucketAt s j).list.map Prod.fst,
      List.mem_map_of_mem _ hb2, hmem⟩
  have hpkk : p.1 = k := hdist p.1 (List.mem_cons_of_mem _ hpk) k
    (List.mem_cons_self _ _) hw
  have hcontains : containsKey (dirBucket s (indexOf hash s k)).list k = true := by
    rw [containsKey_iff]
    have hm := List.mem_map_of_mem Prod.fst hp
    rwa [hpkk] at hm
  rw [hcontains] at hfull
  cases hfull.1

/-- With enough fuel — one unit more than the number of hash bits needed
to tell the colliding keys apart — the insert loop completes. -/
theorem insertGo_terminates (k : K) (v : V) (w : Nat) :
    ∀ (fuel : Nat) (s : EHT K V), WFt hash s → 1 ≤ s.bucket_size →
      (∀ k1 ∈ k :: tableKeys s, ∀ k2 ∈ k :: tableKeys s,
        hash k1 % 2 ^ w = hash k2 % 2 ^ w → k1 = k2) →
      1 ≤ fuel → w < fuel + (dirBucket s (indexOf hash s k)).depth →
      (insertGo hash fuel s (indexOf hash s k) k v).isSome = true := by
  intro fuel
  induction fuel with
  | zero =>
    intro s hwf hcap hdist hfuel hbound
    omega
  | succ fuel ih =>
    intro s hwf hcap hdist hfuel hbound
    rw [insertGo]
    cases hins : (dirBucket s (indexOf hash s k)).insertB k v with
    | some b' =>
      obtain ⟨j, hj, hjlt⟩ := hwf.slots _ (indexOf_lt_dirLen hwf k)
      show (match slotPtr s (indexOf hash s k) with
        | some j => some { s with buckets := setNth s.buckets j b' }
        | none => some s).isSome = true
      rw [hj]
      rfl
    | none =>
      show (insertGo hash fuel (insertFail hash s (indexOf hash s k) k).1
        (insertFail hash s (indexOf hash s k) k).2 k v).isSome = true
      have hdlt : (dirBucket s (indexOf hash s k)).depth < w :=
        fail_depth_lt hwf hcap hdist hins
      obtain ⟨f1, f2, f3, f4, f5, f6⟩ := insertFail_sound k hwf
      rw [f2]
      apply ih
      · exact f1
      · rwa [f4]
      · intro k1 hk1 k2 hk2 hh
        apply hdist k1 ?_ k2 ?_ hh
        · rcases List.mem_cons.1 hk1 with h | h
          · exact h ▸ List.mem_cons_self _ _
          · exact List.mem_cons_of_mem _ (f6 _ h)
        · rcases List.mem_cons.1 hk2 with h | h
          · exact h ▸ List.mem_cons_self _ _
          · exact List.mem_cons_of_mem _ (f6 _ h)
      · omega
      · rw [f5]
        omega

end Termination

/-! ## Remaining hash table claims -/

/-- C1: for every trace of completed `Insert`/`Remove` operations on a
fresh directory — including any number of bucket splits and directory
doublings triggered inside the inserts — and for every key that the trace
leaves inserted-and-not-removed, `Find` returns the value of the most
recent insert of that key. -/
theorem C1_find_returns_last_value [DecidableEq K] (hash : K → Nat)
    (fuel cap : Nat) (ops : List (EOp K V)) (s : EHT K V) (k : K) (v : V)
    (hrun : runOps hash fuel cap ops = some s)
    (hspec : specOf ops k = some v) :
    findT hash s k = some v := by
  obtain ⟨hwf, habs⟩ := runOps_sound hash fuel cap ops s hrun
  rw [findT_eq_absMap hwf k, habs k]
  exact hspec

theorem C1_find_returns_last_value_witness : findT idHash c1state 0 = some 12 :=
  C1_find_returns_last_value idHash 10 2 c1ops c1state 0 12 (by decide) (by decide)

/-- C5 (amended): the split-and-retry loop terminates whenever the stored
keys and the inserted key have pairwise distinct hashes modulo `2 ^ w` for
some width `w` (in particular no more than `bucketCapacity ≥ 1` keys share
a full hash value): `w + 2` fuel units — so at most `w + 1` loop
iterations — always suffice.  The iteration count is governed by the hash
bit width `w` needed to separate the colliding keys, not by the logarithm
of how many keys collide (see the counterexample). -/
theorem C5_amended_termination [DecidableEq K] (hash : K → Nat) {s : EHT K V}
    (hwf : WFt hash s) (k : K) (v : V) (w : Nat)
    (hcap : 1 ≤ s.bucket_size)
    (hdist : ∀ k1 ∈ k :: tableKeys s, ∀ k2 ∈ k :: tableKeys s,
      hash k1 % 2 ^ w = hash k2 % 2 ^ w → k1 = k2) :
    (insertT hash (w + 2) s k v).isSome = true :=
  insertGo_terminates k v w (w + 2) s hwf hcap hdist (by omega) (by omega)

theorem C5_amended_termination_witness :
    (insertT idHash 13 c5start 512 99).isSome = true :=
  C5_amended_termination idHash
    (runOps_sound idHash 5 2 [EOp.ins 0 10, EOp.ins 1024 11] c5start (by decide)).1
    512 99 11 (by decide) (by decide)

/-- C9: inserting a key already present in the bucket `IndexOf` routes it
to is a pure upsert, even when that bucket is full: the insert loop exits
on its first iteration, the global depth, bucket count, directory array
and every local depth are unchanged, the key-to-bucket assignment of every
key is unchanged, the key now reads back the new value, and no other
key's binding changes. -/
theorem C9_upsert_no_split [DecidableEq K] (hash : K → Nat) {s : EHT K V}
    (hwf : WFt hash s) (k : K) (v : V) (fuel : Nat)
    (hk : containsKey (dirBucket s (indexOf hash s k)).list k = true) :
    ∃ s', insertT hash (fuel + 1) s k v = some s' ∧
      getGlobalDepthT s' = getGlobalDepthT s ∧
      getNumBucketsT s' = getNumBucketsT s ∧
      s'.dir = s.dir ∧
      (∀ i, getLocalDepthT s' i = getLocalDepthT s i) ∧
      (∀ k', indexOf hash s' k' = indexOf hash s k' ∧
        slotPtr s' (indexOf hash s' k') = slotPtr s (indexOf hash s k')) ∧
      findT hash s' k = some v ∧
      (∀ k', k' ≠ k → absMap hash s' k' = absMap hash s k') := by
  have hidx : indexOf hash s k < s.dir.length := indexOf_lt_dirLen hwf k
  obtain ⟨j, hj, hjlt⟩ := hwf.slots _ hidx
  have hins : (dirBucket s (indexOf hash s k)).insertB k v =
      some (Bucket.mk (dirBucket s (indexOf hash s k)).size
        (dirBucket s (indexOf hash s k)).depth
        (setVal (dirBucket s (indexOf hash s k)).list k v)) :=
    insertB_pos v hk
  set b' : Bucket K V := Bucket.mk (dirBucket s (indexOf hash s k)).size
    (dirBucket s (indexOf hash s k)).depth
    (setVal (dirBucket s (indexOf hash s k)).list k v) with hb'
  obtain ⟨w1, w2, w3⟩ := insert_write_WF hwf hj hins
  refine ⟨{ s with buckets := setNth s.buckets j b' }, ?_, rfl, rfl, rfl,
    ?_, ?_, ?_, w3⟩
  · show insertGo hash (fuel + 1) s (indexOf hash s k) k v =
      some { s with buckets := setNth s.buckets j b' }
    rw [insertGo, hins]
    show (match slotPtr s (indexOf hash s k) with
      | some j => some { s with buckets := setNth s.buckets j b' }
      | none => some s) = some { s with buckets := setNth s.buckets j b' }
    rw [hj]
  · intro i
    show (dirBucket { s with buckets := setNth s.buckets j b' } i).depth =
      (dirBucket s i).depth
    unfold dirBucket
    have hsp : slotPtr { s with buckets := setNth s.buckets j b' } i =
        slotPtr s i := rfl
    rw [hsp]
    cases hq : slotPtr s i with
    | none => rfl
    | some j'' =>
      show (bucketAt { s with buckets := setNth s.buckets j b' } j'').depth =
        (bucketAt s j'').depth
      by_cases he : j'' = j
      · subst he
        have hset : bucketAt { s with buckets := setNth s.buckets j'' b' } j'' =
            b' := getDef_setNth_eq _ _ hjlt
        rw [hset, hb']
        show (dirBucket s (indexOf hash s k)).depth = (bucketAt s j'').depth
        rw [dirBucket_of_slotPtr hj]
      · have hset : bucketAt { s with buckets := setNth s.buckets j b' } j'' =
            bucketAt s j'' := getDef_setNth_ne _ _ (fun h => he h.symm)
        rw [hset]
  · intro k'
    exact ⟨rfl, rfl⟩
  · rw [findT_eq_absMap w1 k]
    exact w2

theorem C9_upsert_no_split_witness :
    ∃ s', insertT idHash 5 c9state 0 99 = some s' ∧
      getGlobalDepthT s' = getGlobalDepthT c9state ∧
      getNumBucketsT s' = getNumBucketsT c9state ∧
      s'.dir = c9state.dir ∧
      (∀ i, getLocalDepthT s' i = getLocalDepthT c9state i) ∧
      (∀ k', indexOf idHash s' k' = indexOf idHash c9state k' ∧
        slotPtr s' (indexOf idHash s' k') =
          slotPtr c9state (indexOf idHash c9state k')) ∧
      findT idHash s' 0 = some 99 ∧
      (∀ k', k' ≠ 0 → absMap idHash s' k' = absMap idHash c9state k') :=
  C9_upsert_no_split idHash
    (runOps_sound idHash 5 2 [EOp.ins 0 1, EOp.ins 1 2] c9state (by decide)).1
    0 99 4 (by decide)

/-- C10: in every reachable directory state, `IndexOf` of any key is a
valid directory index and the slot it designates holds a live (non-null)
bucket pointer into the arena — so the early-return guards of `Find`
(`index >= dir_.size()`, `bucket == nullptr`) and `Remove`
(`index > dir_.size()`, null check) can never fire. -/
theorem C10_routing_in_range [DecidableEq K] (hash : K → Nat)
    (fuel cap : Nat) (ops : List (EOp K V)) (s : EHT K V)
    (hrun : runOps hash fuel cap ops = some s) (k : K) :
    indexOf hash s k < s.dir.length ∧
    slotPtr s (indexOf hash s k) ≠ none ∧
    ∃ j, slotPtr s (indexOf hash s k) = some j ∧ j < s.buckets.length := by
  obtain ⟨hwf, _⟩ := runOps_sound hash fuel cap ops s hrun
  obtain ⟨j, hj, hjlt⟩ := hwf.slots _ (indexOf_lt_dirLen hwf k)
  refine ⟨indexOf_lt_dirLen hwf k, ?_, ⟨j, hj, hjlt⟩⟩
  rw [hj]
  intro h
  cases h

theorem C10_routing_in_range_witness :
    indexOf idHash c10state 5 < c10state.dir.length ∧
    slotPtr c10state (indexOf idHash c10state 5) ≠ none ∧
    ∃ j, slotPtr c10state (indexOf idHash c10state 5) = some j ∧
      j < c10state.buckets.length :=
  C10_routing_in_range idHash 10 2 c10ops c10state (by decide) 5

end Bustub
